import Mathlib

/-!
Verification of the monotail query-execution core against its
natural-language specification.

The development shallowly embeds the relevant Rust sources:

* `src/core/data_loader/dedupe.rs` (`Dedupe::dedupe`, `Dedupe::step`) as a
  transition system over interleaved task actions (namespace `Dedupe`);
* `src/core/jit/exec.rs` (`ExecutorInner::execute`) as a state-passing
  interpreter over an abstract IR executor (namespace `Exec`);
* `src/core/jit/synth/synth.rs` (`Synth::synthesize`, `Synth::iter`,
  `Synth::iter_inner`) as fueled mutually recursive functions (namespace
  `SynthJit`);
* `src/core/ir/jit/mod.rs` (`QueryPlanBuilder::resolve_selection_set`,
  `create_field_set`) and `src/core/ir/jit/model.rs` (`ExecutionPlan::new`,
  `Field::into_children`) in namespace `Builder`.

Types whose defining files are absent from the source snapshot (the
blueprint `Type`, the jit `Store`/`Data`, the jit model `Field` helpers)
are modelled from the specification and from their uses in the present
sources; each such definition is marked in its doc comment.
-/

namespace Monotail

/-- Modelled from the spec: the blueprint output type, a "named/list/nullable
wrapper" (`src/core/blueprint/blueprint.rs` is absent from the snapshot; its
`is_list`/`is_nullable`/`name` accessors are used by the present sources). -/
inductive GType where
  | named (name : String) (nonNull : Bool)
  | list (ofType : GType) (nonNull : Bool)
  deriving DecidableEq

/-- Mirror of `Type::is_list`. -/
def GType.is_list : GType → Bool
  | .named _ _ => false
  | .list _ _ => true

/-- Mirror of `Type::is_nullable`: the outermost wrapper is not non-null. -/
def GType.is_nullable : GType → Bool
  | .named _ nn => !nn
  | .list _ nn => !nn

/-- Mirror of `Type::name`: the innermost named type. -/
def GType.name : GType → String
  | .named n _ => n
  | .list t _ => t.name

/-- JSON-like values, the shallow embedding of the `JsonLike` value types
(`async_graphql::Value` / `serde_json_borrow::Value`) the jit code is
instantiated at. -/
inductive JValue where
  | null
  | bool (b : Bool)
  | num (n : Int)
  | str (s : String)
  | arr (elems : List JValue)
  | obj (fields : List (String × JValue))

/-- Mirror of `JsonLike::is_null`. -/
def JValue.isNull : JValue → Bool
  | .null => true
  | _ => false

/-- Mirror of `JsonLike::as_array` (`Some` exactly for arrays). -/
def JValue.asArray : JValue → Option (List JValue)
  | .arr xs => some xs
  | _ => none

/-- Mirror of `JsonLike::as_object`. -/
def JValue.asObject : JValue → Option (List (String × JValue))
  | .obj fs => some fs
  | _ => none

/-- Mirror of `JsonLike::as_str`. -/
def JValue.asStr : JValue → Option String
  | .str s => some s
  | _ => none

/-- Mirror of `JsonObjectLike::get_key` (first binding wins). -/
def JValue.getKey (fs : List (String × JValue)) (k : String) : Option JValue :=
  (fs.find? (fun p => p.1 == k)).map (·.2)

/-- Mirror of `JsonLike::get_type_name`: the string value of the object
property `__typename`, if any. -/
def JValue.getTypeName (v : JValue) : Option String :=
  match v.asObject with
  | some fs => match JValue.getKey fs "__typename" with
    | some w => w.asStr
    | none => none
  | none => none

end Monotail

namespace Monotail.Dedupe

/-!
Embedding of `src/core/data_loader/dedupe.rs`.

`Dedupe::dedupe`/`Dedupe::step` run under a mutex: every cache inspection
or mutation is atomic. We model the behaviour of all callers for one fixed
key as a transition system: each caller (task) progresses through phases,
and a schedule is a list of atomic actions. The `HashMap` operations of
the source only ever touch the entry of the key being stepped, so the
per-key entry is all the state the claims need.
-/

/-- Phase of one `dedupe` caller for the fixed key. `start`: the call was
issued but `step` has not run; `waiting`: got `Step::Await` and is blocked on
the broadcast receiver; `running`: got `Step::Init` and is executing
`or_else()` as the owner; `done v`: `dedupe` returned `v`; `cancelled`: the
owner future was dropped before completing. -/
inductive Phase (V : Type) where
  | start
  | waiting
  | running
  | done (v : V)
  | cancelled
  deriving DecidableEq

/-- The cache entry for the key, mirroring `State<Value>`: `Ready(value)`,
or `Pending(Weak<Sender>)` — with the aliveness of the weak reference made
explicit and the subscribed receivers recorded — or no entry at all. -/
inductive Entry (V : Type) where
  | absent
  | pending (alive : Bool) (subs : List Nat)
  | ready (v : V)
  deriving DecidableEq

/-- Joint state: the cache entry for the key, every task phase, and the
number of times a compute closure (`or_else`) has been invoked. -/
structure DState (V : Type) where
  entry : Entry V
  tasks : Nat → Phase V
  count : Nat

/-- Configuration of one `Dedupe` instance and the calls against it:
`computeFn t` is the value task `t`'s own compute closure would produce,
`persist` is the constructor flag. -/
structure Cfg (V : Type) where
  computeFn : Nat → V
  persist : Bool

/-- Result of `Dedupe::step`, mirroring `Step<Value>` (the payloads are
tracked in the entry instead). -/
inductive StepR where
  | ret
  | awaitRx
  | init
  deriving DecidableEq

/-- Mirror of `Dedupe::step` acting on the entry of the stepped key, for
caller `t`: a `Ready` value is returned; a live `Pending` sender is
subscribed to; a dead `Pending` sender (or no entry) is replaced by a fresh
`Pending` whose weak sender is alive, and the caller becomes the owner. -/
def stepFn (t : Nat) : Entry V → StepR × Entry V
  | .ready v => (.ret, .ready v)
  | .pending true subs => (.awaitRx, .pending true (subs ++ [t]))
  | .pending false _ => (.init, .pending true [])
  | .absent => (.init, .pending true [])

/-- Point update of the task-phase map. -/
def setTask (tasks : Nat → Phase V) (t : Nat) (p : Phase V) : Nat → Phase V :=
  fun s => if s = t then p else tasks s

/-- Broadcast of value `v` to the subscribed receivers: every subscriber
task becomes `done v` (mirrors `tx.send(value)` waking each
`rx.recv().await`). -/
def broadcast (tasks : Nat → Phase V) (subs : List Nat) (v : V) : Nat → Phase V :=
  fun s => if s ∈ subs then .done v else tasks s

/-- Atomic action: task `t` runs `step` plus the immediate follow-up of its
arm of the `match` in `dedupe` (return a ready value, block on the
receiver, or start `or_else()` as owner — counted as one compute
invocation). -/
def stepA (st : DState V) (t : Nat) : DState V :=
  match st.tasks t with
  | .start =>
    match stepFn t st.entry with
    | (.ret, e) =>
      match st.entry with
      | .ready v => { st with entry := e, tasks := setTask st.tasks t (.done v) }
      | _ => st
    | (.awaitRx, e) => { st with entry := e, tasks := setTask st.tasks t .waiting }
    | (.init, e) =>
      { entry := e, tasks := setTask st.tasks t .running, count := st.count + 1 }
  | _ => st

/-- Atomic action: the owner `t` finishes `or_else()` with its value, then
(under the lock) inserts `Ready` when `persist` and removes the entry
otherwise, and finally broadcasts the value to the subscribers of its
sender and returns it. -/
def finishA (cfg : Cfg V) (st : DState V) (t : Nat) : DState V :=
  match st.tasks t with
  | .running =>
    let v := cfg.computeFn t
    match st.entry with
    | .pending _ subs =>
      { entry := if cfg.persist then .ready v else .absent,
        tasks := setTask (broadcast st.tasks subs v) t (.done v),
        count := st.count }
    | _ =>
      { st with
        entry := if cfg.persist then .ready v else .absent,
        tasks := setTask st.tasks t (.done v) }
  | _ => st

/-- Atomic action: the owner future is dropped before completion. Its
`Arc<Sender>` — the only strong reference — is dropped, so the weak
reference stored in the `Pending` entry dies. -/
def cancelA (st : DState V) (t : Nat) : DState V :=
  match st.tasks t with
  | .running =>
    { st with
      tasks := setTask st.tasks t .cancelled,
      entry := match st.entry with
        | .pending _ subs => .pending false subs
        | e => e }
  | _ => st

/-- One schedulable action. -/
inductive Action where
  | step (t : Nat)
  | finish (t : Nat)
  | cancel (t : Nat)

/-- Apply one action. -/
def applyA (cfg : Cfg V) (st : DState V) : Action → DState V
  | .step t => stepA st t
  | .finish t => finishA cfg st t
  | .cancel t => cancelA st t

/-- Run a schedule of actions from a state. -/
def run (cfg : Cfg V) (st : DState V) (sched : List Action) : DState V :=
  sched.foldl (applyA cfg) st

/-- Initial state: no cache entry for the key, every task has merely issued
its call, no compute invocation yet. -/
def initState (V : Type) : DState V :=
  { entry := .absent, tasks := fun _ => .start, count := 0 }

end Monotail.Dedupe

namespace Monotail.Dedupe

/-- Running the `step` actions of tasks `ts` against a live `Pending` entry
subscribes each of them in order: none becomes owner, no compute runs. -/
theorem run_subscribes {V : Type} (cfg : Cfg V) :
    ∀ (ts : List Nat) (st : DState V) (subs : List Nat),
    st.entry = .pending true subs →
    (∀ t ∈ ts, st.tasks t = .start) →
    ts.Nodup →
    (run cfg st (ts.map .step)).entry = .pending true (subs ++ ts)
    ∧ (∀ s, (run cfg st (ts.map .step)).tasks s =
        if s ∈ ts then .waiting else st.tasks s)
    ∧ (run cfg st (ts.map .step)).count = st.count := by
  intro ts
  induction ts with
  | nil =>
    intro st subs he _ _
    refine ⟨by simpa [run] using he, fun s => by simp [run], by simp [run]⟩
  | cons t rest ih =>
    intro st subs he hstart hnd
    have hstep : stepA st t =
        { st with entry := .pending true (subs ++ [t]),
                  tasks := setTask st.tasks t .waiting } := by
      simp [stepA, hstart t (by simp), he, stepFn]
    have hrun : run cfg st ((t :: rest).map .step) =
        run cfg (stepA st t) (rest.map .step) := rfl
    have hnd1 : rest.Nodup := hnd.of_cons
    have hnt : t ∉ rest := by
      intro hmem
      exact (List.nodup_cons.mp hnd).1 hmem
    have hstart1 : ∀ u ∈ rest,
        (setTask st.tasks t (Phase.waiting (V := V))) u = .start := by
      intro u hu
      have hut : u ≠ t := by
        intro h
        exact hnt (h ▸ hu)
      simp [setTask, hut]
      exact hstart u (by simp [hu])
    obtain ⟨ha, hb, hc⟩ := ih
      { st with entry := .pending true (subs ++ [t]),
                tasks := setTask st.tasks t .waiting }
      (subs ++ [t]) rfl hstart1 hnd1
    refine ⟨?_, ?_, ?_⟩
    · rw [hrun, hstep]
      simpa [List.append_assoc] using ha
    · intro s
      rw [hrun, hstep]
      rw [hb s]
      by_cases hs : s ∈ rest
      · simp [hs]
      · by_cases hst : s = t
        · simp [hs, hst, setTask]
        · simp [hs, hst, setTask]
    · rw [hrun, hstep]
      simpa using hc

/-- C2. Dedup at-most-once: with no prior entry for the key, for any
interleaving in which all `N ≥ 2` concurrent callers run their `step`
before the owner completes, the compute closure runs exactly once (by the
first stepper, the owner) and every caller returns the owner's value. -/
theorem dedupe_at_most_once {V : Type} (cfg : Cfg V) (N : Nat) (t0 : Nat)
    (ts : List Nat) (hN : 2 ≤ N) (hperm : (t0 :: ts).Perm (List.range N)) :
    (run cfg (initState V) ((t0 :: ts).map Action.step ++ [Action.finish t0])).count = 1
    ∧ ∀ t, t < N →
      (run cfg (initState V) ((t0 :: ts).map Action.step ++ [Action.finish t0])).tasks t
        = Phase.done (cfg.computeFn t0) := by
  have hnodup : (t0 :: ts).Nodup := hperm.nodup_iff.mpr (List.nodup_range N)
  have hnt : t0 ∉ ts := (List.nodup_cons.mp hnodup).1
  have hndts : ts.Nodup := (List.nodup_cons.mp hnodup).2
  have hmem : ∀ t, t < N ↔ t ∈ t0 :: ts := by
    intro t
    rw [← List.mem_range (n := N)]
    exact (hperm.mem_iff).symm
  -- the first step makes t0 the owner
  have hstep0 : stepA (initState V) t0 =
      { entry := .pending true [],
        tasks := setTask (fun _ => Phase.start) t0 .running,
        count := 1 } := by
    simp [stepA, initState, stepFn]
  have hrun1 : run cfg (initState V) ((t0 :: ts).map Action.step) =
      run cfg (stepA (initState V) t0) (ts.map Action.step) := rfl
  obtain ⟨ha, hb, hc⟩ := run_subscribes cfg ts
    { entry := .pending true [],
      tasks := setTask (fun _ => Phase.start) t0 .running,
      count := 1 } [] rfl
    (by
      intro u hu
      have hut : u ≠ t0 := by
        intro h
        exact hnt (h ▸ hu)
      simp [setTask, hut]) hndts
  set st2 := run cfg
    { entry := .pending true [],
      tasks := setTask (fun _ => Phase.start) t0 .running,
      count := 1 } (ts.map Action.step) with hst2
  have ht0run : st2.tasks t0 = .running := by
    rw [hb t0]
    simp [hnt, setTask]
  have hfin : run cfg (initState V) ((t0 :: ts).map Action.step ++ [Action.finish t0])
      = finishA cfg st2 t0 := by
    have h1 : run cfg (initState V) ((t0 :: ts).map Action.step ++ [Action.finish t0])
        = run cfg (run cfg (initState V) ((t0 :: ts).map Action.step))
            [Action.finish t0] := by
      simp [run, List.foldl_append]
    rw [h1, hrun1, hstep0, ← hst2]
    rfl
  have hentry2 : st2.entry = .pending true ts := by simpa using ha
  have hfa : finishA cfg st2 t0 =
      { entry := if cfg.persist then .ready (cfg.computeFn t0) else .absent,
        tasks := setTask (broadcast st2.tasks ts (cfg.computeFn t0)) t0
          (.done (cfg.computeFn t0)),
        count := st2.count } := by
    simp [finishA, ht0run, hentry2]
  constructor
  · rw [hfin, hfa]
    simpa using hc
  · intro t ht
    have htmem : t ∈ t0 :: ts := (hmem t).mp ht
    rw [hfin, hfa]
    by_cases h0 : t = t0
    · simp [setTask, h0]
    · have hts : t ∈ ts := by
        rcases List.mem_cons.mp htmem with h | h
        · exact absurd h h0
        · exact h
      simp [setTask, h0, broadcast, hts]

/-- Witness for C2: two concurrent callers, key stepping order `[0, 1]`,
owner `0`; compute runs once and both callers return `10`. -/
theorem dedupe_at_most_once_witness :
    2 ≤ 2 ∧ ([0, 1] : List Nat).Perm (List.range 2)
    ∧ ((run (Cfg.mk (fun t => t + 10) true) (initState Nat)
          (([0, 1] : List Nat).map Action.step ++ [Action.finish 0])).count = 1
      ∧ ∀ t, t < 2 →
        (run (Cfg.mk (fun t => t + 10) true) (initState Nat)
          (([0, 1] : List Nat).map Action.step ++ [Action.finish 0])).tasks t
          = Phase.done ((fun t => t + 10) 0)) :=
  ⟨by decide, by decide,
    dedupe_at_most_once (Cfg.mk (fun t => t + 10) true) 2 0 [1]
      (by decide) (by decide)⟩

/-- C5. Cancelled-owner promotion: `step` on a `Pending` entry whose weak
sender is dead returns `Step::Init` and installs a fresh live `Pending`;
consequently a `dedupe` call issued after the owner was cancelled becomes
the new owner and completes normally with its own computed value. -/
theorem dedupe_cancel_promotes {V : Type} (cfg : Cfg V) (t1 t2 : Nat)
    (hne : t2 ≠ t1) :
    (∀ (t : Nat) (subs : List Nat),
      stepFn (V := V) t (.pending false subs) = (.init, .pending true []))
    ∧ (run cfg (initState V) [.step t1, .cancel t1, .step t2]).entry
        = Entry.pending true []
    ∧ (run cfg (initState V) [.step t1, .cancel t1, .step t2, .finish t2]).tasks t2
        = Phase.done (cfg.computeFn t2) := by
  refine ⟨fun t subs => rfl, ?_, ?_⟩
  · simp [run, applyA, stepA, cancelA, stepFn, setTask, initState, hne]
  · simp [run, applyA, stepA, cancelA, finishA, stepFn, setTask, broadcast,
      initState, hne]

/-- Witness for C5: owner `0` is cancelled; the later caller `1` is
promoted and completes with its own value `11`. -/
theorem dedupe_cancel_promotes_witness :
    (1 : Nat) ≠ 0
    ∧ ((∀ (t : Nat) (subs : List Nat),
        stepFn (V := Nat) t (.pending false subs) = (.init, .pending true []))
      ∧ (run (Cfg.mk (fun t => t + 10) false) (initState Nat)
          [.step 0, .cancel 0, .step 1]).entry = Entry.pending true []
      ∧ (run (Cfg.mk (fun t => t + 10) false) (initState Nat)
          [.step 0, .cancel 0, .step 1, .finish 1]).tasks 1
          = Phase.done ((fun t => t + 10) 1)) :=
  ⟨by decide, dedupe_cancel_promotes (Cfg.mk (fun t => t + 10) false) 0 1 (by decide)⟩

/-- C6. Persistence semantics: after the owner `t0` completes with value
`f t0`, with `persist = true` the cache holds `Ready (f t0)` and any later
caller returns it without running its compute closure (count unchanged,
entry kept); with `persist = false` the entry is gone. -/
theorem dedupe_persistence {V : Type} (f : Nat → V) (t0 t : Nat) (hne : t ≠ t0) :
    (run (Cfg.mk f true) (initState V) [.step t0, .finish t0]).entry
      = Entry.ready (f t0)
    ∧ (∀ (st : DState V) (u : Nat), st.entry = .ready (f t0) →
        st.tasks u = .start →
        (stepA st u).tasks u = .done (f t0)
        ∧ (stepA st u).count = st.count
        ∧ (stepA st u).entry = .ready (f t0))
    ∧ (run (Cfg.mk f true) (initState V) [.step t0, .finish t0, .step t]).tasks t
        = Phase.done (f t0)
    ∧ (run (Cfg.mk f true) (initState V) [.step t0, .finish t0, .step t]).count = 1
    ∧ (run (Cfg.mk f false) (initState V) [.step t0, .finish t0]).entry
        = Entry.absent := by
  refine ⟨?_, ?_, ?_, ?_, ?_⟩
  · simp [run, applyA, stepA, finishA, stepFn, setTask, broadcast, initState]
  · intro st u hentry htask
    refine ⟨?_, ?_, ?_⟩ <;> simp [stepA, htask, hentry, stepFn, setTask]
  · simp [run, applyA, stepA, finishA, stepFn, setTask, broadcast, initState, hne]
  · simp [run, applyA, stepA, finishA, stepFn, setTask, broadcast, initState, hne]
  · simp [run, applyA, stepA, finishA, stepFn, setTask, broadcast, initState]

/-- Witness for C6: owner `0`, later caller `1`; with persistence the entry
is `Ready 10` and caller `1` returns `10` without computing; without
persistence the entry is gone. -/
theorem dedupe_persistence_witness :
    (1 : Nat) ≠ 0
    ∧ ((run (Cfg.mk (fun t => t + 10) true) (initState Nat)
          [.step 0, .finish 0]).entry = Entry.ready ((fun t => t + 10) 0)
      ∧ (∀ (st : DState Nat) (u : Nat),
          st.entry = .ready ((fun t => t + 10) 0) → st.tasks u = .start →
          (stepA st u).tasks u = .done ((fun t => t + 10) 0)
          ∧ (stepA st u).count = st.count
          ∧ (stepA st u).entry = .ready ((fun t => t + 10) 0))
      ∧ (run (Cfg.mk (fun t => t + 10) true) (initState Nat)
          [.step 0, .finish 0, .step 1]).tasks 1 = Phase.done ((fun t => t + 10) 0)
      ∧ (run (Cfg.mk (fun t => t + 10) true) (initState Nat)
          [.step 0, .finish 0, .step 1]).count = 1
      ∧ (run (Cfg.mk (fun t => t + 10) false) (initState Nat)
          [.step 0, .finish 0]).entry = Entry.absent) :=
  ⟨by decide, dedupe_persistence (fun t => t + 10) 0 1 (by decide)⟩

end Monotail.Dedupe

namespace Monotail.Exec

/-!
Embedding of `src/core/jit/exec.rs` (`ExecutorInner`). The abstract
`IRExecutor` is a function parameter `irExec`; IR nodes are opaque tokens.
The evaluation context is reduced to its parent-value slot, the only part
`execute` manipulates (`ctx.with_value(value)`). The concurrent `join_all`
fan-out over a mutex-guarded store is linearised left-to-right; each write
targets its own `(FieldId, DataPath)` key, so the linearisation preserves
the per-key contents the claims are about.
-/

/-- Mirror of the executor-side `Field<Nested>`: id, optional resolver IR,
output type, child fields. -/
inductive EField where
  | mk (id : Nat) (ir : Option Nat) (typeOf : GType) (nested : List EField)

/-- Field id accessor. -/
def EField.id : EField → Nat
  | .mk i _ _ _ => i

/-- Resolver IR accessor. -/
def EField.ir : EField → Option Nat
  | .mk _ ir0 _ _ => ir0

/-- Output type accessor. -/
def EField.typeOf : EField → GType
  | .mk _ _ t _ => t

/-- Child fields accessor (mirror of `Field::nested`). -/
def EField.nested : EField → List EField
  | .mk _ _ _ cs => cs

/-- Modelled from the spec: the `Store` is "a `(FieldId, DataPath) →
Result<Value, Error>` map" (`src/core/jit/store.rs` is absent from the
snapshot; only its callers are). Inserts are consed; lookups return the
most recent insert for the key. -/
def EStore : Type := List ((Nat × List Nat) × Except String JValue)

/-- Mirror of `Store::set` at a `(FieldId, DataPath)` key. -/
def EStore.set (s : EStore) (id : Nat) (path : List Nat)
    (r : Except String JValue) : EStore :=
  ((id, path), r) :: s

/-- Lookup of the most recent value for a `(FieldId, DataPath)` key. -/
def EStore.get : EStore → Nat → List Nat → Option (Except String JValue)
  | [], _, _ => none
  | (k, r) :: rest, id, path =>
    if k = (id, path) then some r else EStore.get rest id path

mutual
/-- Mirror of `ExecutorInner::execute`: if the field has an IR, evaluate it;
on success recurse into the children (fanning out per list element when the
field type is a list and the value is an array, passing the single value
down otherwise), then write the field's own result — `Ok` or `Err` — into
the store at `(field.id, data_path)`; finally return `Ok(())`. -/
def execute (irExec : Nat → Option JValue → Except String JValue)
    (f : EField) (ctx : Option JValue) (path : List Nat) (store : EStore) :
    EStore × Except String Unit :=
  match f with
  | .mk id ir0 ty nested =>
    match ir0 with
    | none => (store, .ok ())
    | some ir1 =>
      let result := irExec ir1 ctx
      let store1 :=
        match result with
        | .ok value =>
          if ty.is_list then
            match value.asArray with
            | some arr => execListBranch irExec nested arr path store
            | none => store
          else
            execSingleBranch irExec nested value path store
        | .error _ => store
      (EStore.set store1 id path result, .ok ())
termination_by (sizeOf f, 0)

/-- The non-list branch: every child is executed with the single resolved
value as parent and the unchanged data path. -/
def execSingleBranch (irExec : Nat → Option JValue → Except String JValue)
    (cs : List EField) (value : JValue) (path : List Nat) (store : EStore) :
    EStore :=
  match cs with
  | [] => store
  | c :: rest =>
    execSingleBranch irExec rest value path
      (execute irExec c (some value) path store).1
termination_by (sizeOf cs, 0)

/-- The list branch: every child is executed once per array element, with
the element as parent value and the data path extended by its index. -/
def execListBranch (irExec : Nat → Option JValue → Except String JValue)
    (cs : List EField) (arr : List JValue) (path : List Nat) (store : EStore) :
    EStore :=
  match cs with
  | [] => store
  | c :: rest =>
    execListBranch irExec rest arr path
      (execElems irExec c arr.enum path store)
termination_by (sizeOf cs, 0)

/-- Per-element fan-out of one child over the enumerated array. -/
def execElems (irExec : Nat → Option JValue → Except String JValue)
    (c : EField) (elems : List (Nat × JValue)) (path : List Nat)
    (store : EStore) : EStore :=
  match elems with
  | [] => store
  | (i, v) :: rest =>
    execElems irExec c rest path
      (execute irExec c (some v) (path ++ [i]) store).1
termination_by (sizeOf c, elems.length + 1)
end

/-- Mirror of `ExecutorInner::init`: every root field of the plan is
executed against the fresh request context (no parent value, empty data
path). -/
def initRun (irExec : Nat → Option JValue → Except String JValue)
    (roots : List EField) (store : EStore) : EStore :=
  match roots with
  | [] => store
  | r :: rest => initRun irExec rest (execute irExec r none [] store).1

mutual
/-- All field ids occurring in a subtree. -/
def fieldIds : EField → List Nat
  | .mk i _ _ nested => i :: fieldIdsList nested

/-- All field ids occurring in a forest. -/
def fieldIdsList : List EField → List Nat
  | [] => []
  | c :: rest => fieldIds c ++ fieldIdsList rest
end

end Monotail.Exec

namespace Monotail.Exec

/-- Reading back the key just written. -/
theorem EStore.get_set_same (s : EStore) (id : Nat) (path : List Nat)
    (r : Except String JValue) : (s.set id path r).get id path = some r := by
  simp [EStore.set, EStore.get]

/-- Writes to a different field id leave a lookup unchanged. -/
theorem EStore.get_set_ne (s : EStore) {id1 id2 : Nat}
    (path1 path2 : List Nat) (h : id1 ≠ id2) (r : Except String JValue) :
    (s.set id1 path1 r).get id2 path2 = s.get id2 path2 := by
  simp only [EStore.set, EStore.get]
  rw [if_neg]
  intro hc
  exact h (congrArg Prod.fst hc)

mutual
/-- Executing a subtree only writes keys whose field id lies in the
subtree. -/
theorem execute_preserve (irExec : Nat → Option JValue → Except String JValue)
    (f : EField) (ctx : Option JValue) (path : List Nat) (store : EStore)
    (id0 : Nat) (p0 : List Nat) (h : id0 ∉ fieldIds f) :
    ((execute irExec f ctx path store).1).get id0 p0 = store.get id0 p0 := by
  cases f with
  | mk id ir0 ty nested =>
    have hne : id ≠ id0 := by
      intro hc
      exact h (by simp [fieldIds, hc])
    have hnest : id0 ∉ fieldIdsList nested := by
      intro hc
      exact h (by simp [fieldIds, hc])
    cases ir0 with
    | none => simp [execute]
    | some ir1 =>
      rw [execute]
      simp only
      rw [EStore.get_set_ne _ _ _ hne]
      cases hres : irExec ir1 ctx with
      | error e => simp
      | ok value =>
        simp only
        by_cases hl : ty.is_list
        · simp only [hl]
          cases harr : value.asArray with
          | none => simp
          | some arr =>
            simpa using execListBranch_preserve irExec nested arr path store id0 p0 hnest
        · simp only [hl]
          simpa using execSingleBranch_preserve irExec nested value path store id0 p0 hnest
termination_by (sizeOf f, 0)

/-- Branch analogue of `execute_preserve` for the single-value fan-out. -/
theorem execSingleBranch_preserve
    (irExec : Nat → Option JValue → Except String JValue)
    (cs : List EField) (value : JValue) (path : List Nat) (store : EStore)
    (id0 : Nat) (p0 : List Nat) (h : id0 ∉ fieldIdsList cs) :
    (execSingleBranch irExec cs value path store).get id0 p0
      = store.get id0 p0 := by
  cases cs with
  | nil => simp [execSingleBranch]
  | cons c rest =>
    have hc : id0 ∉ fieldIds c := by
      intro hm
      exact h (by simp [fieldIdsList, hm])
    have hr : id0 ∉ fieldIdsList rest := by
      intro hm
      exact h (by simp [fieldIdsList, hm])
    rw [execSingleBranch]
    rw [execSingleBranch_preserve irExec rest value path _ id0 p0 hr]
    exact execute_preserve irExec c (some value) path store id0 p0 hc
termination_by (sizeOf cs, 0)

/-- Branch analogue of `execute_preserve` for the per-element fan-out of a
list of children. -/
theorem execListBranch_preserve
    (irExec : Nat → Option JValue → Except String JValue)
    (cs : List EField) (arr : List JValue) (path : List Nat) (store : EStore)
    (id0 : Nat) (p0 : List Nat) (h : id0 ∉ fieldIdsList cs) :
    (execListBranch irExec cs arr path store).get id0 p0 = store.get id0 p0 := by
  cases cs with
  | nil => simp [execListBranch]
  | cons c rest =>
    have hc : id0 ∉ fieldIds c := by
      intro hm
      exact h (by simp [fieldIdsList, hm])
    have hr : id0 ∉ fieldIdsList rest := by
      intro hm
      exact h (by simp [fieldIdsList, hm])
    rw [execListBranch]
    rw [execListBranch_preserve irExec rest arr path _ id0 p0 hr]
    exact execElems_preserve irExec c arr.enum path store id0 p0 hc
termination_by (sizeOf cs, 0)

/-- Branch analogue of `execute_preserve` for one child over the
enumerated array elements. -/
theorem execElems_preserve
    (irExec : Nat → Option JValue → Except String JValue)
    (c : EField) (elems : List (Nat × JValue)) (path : List Nat)
    (store : EStore) (id0 : Nat) (p0 : List Nat) (h : id0 ∉ fieldIds c) :
    (execElems irExec c elems path store).get id0 p0 = store.get id0 p0 := by
  cases elems with
  | nil => simp [execElems]
  | cons iv rest =>
    rw [execElems]
    rw [execElems_preserve irExec c rest path _ id0 p0 h]
    exact execute_preserve irExec c (some iv.2) (path ++ [iv.1]) store id0 p0 h
termination_by (sizeOf c, elems.length + 1)
end

/-- Mirror of the `init` walk: ids outside the forest are untouched. -/
theorem initRun_preserve (irExec : Nat → Option JValue → Except String JValue)
    (roots : List EField) (store : EStore) (id0 : Nat) (p0 : List Nat)
    (h : id0 ∉ fieldIdsList roots) :
    (initRun irExec roots store).get id0 p0 = store.get id0 p0 := by
  induction roots generalizing store with
  | nil => simp [initRun]
  | cons r rest ih =>
    have hr : id0 ∉ fieldIds r := by
      intro hm
      exact h (by simp [fieldIdsList, hm])
    have hrest : id0 ∉ fieldIdsList rest := by
      intro hm
      exact h (by simp [fieldIdsList, hm])
    rw [initRun, ih _ hrest]
    exact execute_preserve irExec r none [] store id0 p0 hr

/-- Whatever the IR evaluation produced — `Ok` or `Err` — `execute` stores
it at the field's own `(FieldId, DataPath)` key (the write happens after
all child writes, so it is the latest entry for the key). -/
theorem execute_own_write (irExec : Nat → Option JValue → Except String JValue)
    (f : EField) (ctx : Option JValue) (path : List Nat) (store : EStore)
    (ir1 : Nat) (h : f.ir = some ir1) :
    ((execute irExec f ctx path store).1).get f.id path
      = some (irExec ir1 ctx) := by
  cases f with
  | mk id ir0 ty nested =>
    cases ir0 with
    | none => simp [EField.ir] at h
    | some ir2 =>
      have : ir2 = ir1 := by simpa [EField.ir] using h
      subst this
      rw [execute]
      simp only [EField.id]
      exact EStore.get_set_same _ _ _ _

/-- The `execute` function itself never propagates an evaluation error. -/
theorem execute_ok_result (irExec : Nat → Option JValue → Except String JValue)
    (f : EField) (ctx : Option JValue) (path : List Nat) (store : EStore) :
    (execute irExec f ctx path store).2 = .ok () := by
  cases f with
  | mk id ir0 ty nested => cases ir0 <;> rw [execute]

/-- When the IR evaluation fails, the store gains exactly the field's own
`Err` entry: no child of the field is evaluated. -/
theorem execute_error_no_children
    (irExec : Nat → Option JValue → Except String JValue)
    (f : EField) (ctx : Option JValue) (path : List Nat) (store : EStore)
    (ir1 : Nat) (e : String) (h : f.ir = some ir1)
    (he : irExec ir1 ctx = .error e) :
    execute irExec f ctx path store
      = (store.set f.id path (.error e), .ok ()) := by
  cases f with
  | mk id ir0 ty nested =>
    cases ir0 with
    | none => simp [EField.ir] at h
    | some ir2 =>
      have : ir2 = ir1 := by simpa [EField.ir] using h
      subst this
      rw [execute]
      simp [he, EField.id]

/-- Sibling isolation: in the root walk, every root with an IR ends up with
its own evaluation result in the store, regardless of what happened in the
other branches. -/
theorem initRun_sibling (irExec : Nat → Option JValue → Except String JValue)
    (roots : List EField) (store : EStore) (b : EField) (irb : Nat)
    (hmem : b ∈ roots) (hir : b.ir = some irb)
    (hnd : (fieldIdsList roots).Nodup) :
    (initRun irExec roots store).get b.id [] = some (irExec irb none) := by
  induction roots generalizing store with
  | nil => cases hmem
  | cons r rest ih =>
    have hsplit : (fieldIds r).Nodup ∧ (fieldIdsList rest).Nodup
        ∧ (fieldIds r).Disjoint (fieldIdsList rest) := by
      have : (fieldIds r ++ fieldIdsList rest).Nodup := by
        simpa [fieldIdsList] using hnd
      exact List.nodup_append.mp this
    rcases List.mem_cons.mp hmem with hb | hb
    · subst hb
      have hbid : b.id ∈ fieldIds b := by
        cases b
        simp [fieldIds, EField.id]
      have hout : b.id ∉ fieldIdsList rest := fun hm => hsplit.2.2 hbid hm
      rw [initRun, initRun_preserve irExec rest _ _ _ hout]
      exact execute_own_write irExec b none [] store irb hir
    · rw [initRun]
      exact ih _ hb hsplit.2.1

/-- C4. Executor errors are data, not exceptions: for every field with an
IR, `execute` writes the IR evaluation result — `Ok` or `Err` — into the
store at the field's `(FieldId, DataPath)` and always returns `Ok(())`;
when the evaluation fails the store changes by exactly that one `Err`
entry (no child of the field is evaluated), while every sibling root with
an IR still receives its own result. -/
theorem executor_errors_are_data
    (irExec : Nat → Option JValue → Except String JValue) :
    (∀ (f : EField) (ctx : Option JValue) (path : List Nat) (store : EStore),
      (execute irExec f ctx path store).2 = .ok ())
    ∧ (∀ (f : EField) (ctx : Option JValue) (path : List Nat) (store : EStore)
        (ir1 : Nat), f.ir = some ir1 →
      ((execute irExec f ctx path store).1).get f.id path
        = some (irExec ir1 ctx))
    ∧ (∀ (f : EField) (ctx : Option JValue) (path : List Nat) (store : EStore)
        (ir1 : Nat) (e : String), f.ir = some ir1 → irExec ir1 ctx = .error e →
      execute irExec f ctx path store = (store.set f.id path (.error e), .ok ()))
    ∧ (∀ (roots : List EField) (store : EStore) (b : EField) (irb : Nat),
      b ∈ roots → b.ir = some irb → (fieldIdsList roots).Nodup →
      (initRun irExec roots store).get b.id [] = some (irExec irb none)) :=
  ⟨execute_ok_result irExec,
   fun f ctx path store ir1 h => execute_own_write irExec f ctx path store ir1 h,
   fun f ctx path store ir1 e h he =>
     execute_error_no_children irExec f ctx path store ir1 e h he,
   fun roots store b irb hmem hir hnd =>
     initRun_sibling irExec roots store b irb hmem hir hnd⟩

/-- Witness for C4: root `0` errors, sibling root `1` succeeds; the store
records both results, no propagation. -/
theorem executor_errors_are_data_witness :
    ((EField.mk 0 (some 0) (GType.named "T" true) []).ir = some 0
    ∧ (fun ir _ => if ir = 0 then Except.error "boom"
        else Except.ok (JValue.str "x") : Nat → Option JValue → Except String JValue) 0 none
      = .error "boom"
    ∧ EField.mk 1 (some 1) (GType.named "T" true) []
        ∈ [EField.mk 0 (some 0) (GType.named "T" true) [],
           EField.mk 1 (some 1) (GType.named "T" true) []]
    ∧ (EField.mk 1 (some 1) (GType.named "T" true) []).ir = some 1
    ∧ (fieldIdsList [EField.mk 0 (some 0) (GType.named "T" true) [],
        EField.mk 1 (some 1) (GType.named "T" true) []]).Nodup)
    ∧ (execute (fun ir _ => if ir = 0 then Except.error "boom"
        else Except.ok (JValue.str "x"))
        (EField.mk 0 (some 0) (GType.named "T" true) []) none [] []
      = (EStore.set [] (EField.mk 0 (some 0) (GType.named "T" true) []).id []
          (.error "boom"), .ok ())
    ∧ (initRun (fun ir _ => if ir = 0 then Except.error "boom"
        else Except.ok (JValue.str "x"))
        [EField.mk 0 (some 0) (GType.named "T" true) [],
         EField.mk 1 (some 1) (GType.named "T" true) []] []).get
        (EField.mk 1 (some 1) (GType.named "T" true) []).id []
      = some ((fun ir _ => if ir = 0 then Except.error "boom"
          else Except.ok (JValue.str "x") : Nat → Option JValue → Except String JValue) 1 none)) := by
  refine ⟨⟨rfl, rfl, by simp, rfl, by decide⟩, ?_, ?_⟩
  · exact (executor_errors_are_data _).2.2.1
      (EField.mk 0 (some 0) (GType.named "T" true) []) none [] [] 0 "boom" rfl rfl
  · exact (executor_errors_are_data _).2.2.2
      [EField.mk 0 (some 0) (GType.named "T" true) [],
       EField.mk 1 (some 1) (GType.named "T" true) []] []
      (EField.mk 1 (some 1) (GType.named "T" true) []) 1 (by simp) rfl (by decide)

end Monotail.Exec

namespace Monotail.SynthJit

/-!
Embedding of `src/core/jit/synth/synth.rs` (`Synth`). The store walker
`iter`/`iter_inner` is mutually recursive through the plan tree and the
store contents, so it is given explicit fuel; `none` stands for fuel
exhaustion or for the panic of indexing a missing key of a
`Data::Multiple` map. Every theorem supplies enough fuel explicitly.
-/

/-- Mirror of `jit::ValidationError` (`ValueRequired`, `ScalarInvalid`,
`EnumInvalid`). -/
inductive ValidationError where
  | valueRequired
  | scalarInvalid (typeOf : String)
  | enumInvalid (typeOf : String)
  deriving DecidableEq

/-- Mirror of the jit `Error` as the synthesizer uses it: a validation
error or an opaque server/resolver error message. -/
inductive SynthError where
  | validation (e : ValidationError)
  | server (message : String)
  deriving DecidableEq

/-- Mirror of `jit::PathSegment`: a response-path step. -/
inductive PathSegment where
  | field (name : String)
  | index (i : Nat)
  deriving DecidableEq

/-- Mirror of `jit::Positioned`: an error with a source position and a
response path. -/
structure Positioned (α : Type) where
  value : α
  pos : Nat
  path : List PathSegment
  deriving DecidableEq

/-- Modelled from the spec and the in-tree tests: `jit::store::Data` —
`Single` holds one result, `Multiple` holds per-list-index sub-data
(`src/core/jit/store.rs` is absent from the snapshot; the shape is fixed
by `Synth::iter` and by the `Data::Multiple(... enumerate().collect())`
construction in the synth tests). -/
inductive Data (α : Type) where
  | single (a : α)
  | multiple (entries : List (Nat × Data α))

/-- Index lookup in a `Data::Multiple` map. -/
def lookupIdx {α : Type} : List (Nat × Data α) → Nat → Option (Data α)
  | [], _ => none
  | (k, d) :: rest, i => if k = i then some d else lookupIdx rest i

/-- Mirror of the synthesizer-side `Field<Nested, Value>`: id, source name,
output name (alias), output type, the skip/include evaluation for the
request's fixed variables (`Field::skip` lives in the absent
`src/core/jit/model.rs`; for a fixed `Variables` table it is a boolean per
field, modelled here as `skipFlag` per the spec's skip-directive clause),
the inline-fragment type condition, the source position, and the child
fields. -/
inductive SField where
  | mk (id : Nat) (name outputName : String) (typeOf : GType)
      (skipFlag : Bool) (typeCond : Option String) (pos : Nat)
      (nested : List SField)

/-- Field id accessor. -/
def SField.id : SField → Nat
  | .mk i _ _ _ _ _ _ _ => i

/-- Source name accessor. -/
def SField.name : SField → String
  | .mk _ n _ _ _ _ _ _ => n

/-- Output name (alias) accessor. -/
def SField.outputName : SField → String
  | .mk _ _ o _ _ _ _ _ => o

/-- Output type accessor. -/
def SField.typeOf : SField → GType
  | .mk _ _ _ t _ _ _ _ => t

/-- Skip evaluation (`field.skip(&variables)`) for the fixed variables. -/
def SField.skipFlag : SField → Bool
  | .mk _ _ _ _ s _ _ _ => s

/-- Inline-fragment type condition accessor. -/
def SField.typeCond : SField → Option String
  | .mk _ _ _ _ _ c _ _ => c

/-- Source position accessor. -/
def SField.pos : SField → Nat
  | .mk _ _ _ _ _ _ p _ => p

/-- Child fields accessor. -/
def SField.nested : SField → List SField
  | .mk _ _ _ _ _ _ _ cs => cs

/-- The same field with its children replaced (used to state that a branch
does not visit children). -/
def SField.withNested : SField → List SField → SField
  | .mk i n o t s c p _, cs => .mk i n o t s c p cs

/-- Modelled from the spec: `Field::nested_iter(type_name)` yields the
children applicable to the runtime type name — inline fragments "apply
only when the actual runtime type name of the evaluated value matches". -/
def nestedIter (f : SField) (typeName : String) : List SField :=
  f.nested.filter fun c =>
    match c.typeCond with
    | none => true
    | some t => t == typeName

/-- One stored result: the `Store` holds `Result<Value, Positioned<Error>>`
values (already positioned by the executor). -/
def SRes : Type := Except (Positioned SynthError) JValue

/-- Modelled from the spec: the synth-side `Store`, keyed by `FieldId`
(`src/core/jit/store.rs` is absent from the snapshot). -/
def SStore : Type := List (Nat × Data SRes)

/-- Store lookup by field id (mirror of `store.get(&node.id)`). -/
def SStore.get : SStore → Nat → Option (Data SRes)
  | [], _ => none
  | (k, d) :: rest, id => if k = id then some d else SStore.get rest id

/-- The flat, parent-linked view of a plan field, as consulted by
`Synth::to_location_error` via `plan.find_field` and `field.parent()`. -/
structure FlatField where
  id : Nat
  outputName : String
  parent : Option Nat
  deriving DecidableEq

/-- The synthesizer-side `OperationPlan`: the nested roots view, the flat
parent-linked view, and the schema-derived predicates
(`field_is_scalar`, `field_is_enum`, `Scalar::validate`,
`field_validate_enum_value` — all keyed by the type name; these live in
the absent `src/core/jit/model.rs` and scalar modules and are modelled
from the spec as abstract predicates of the plan). -/
structure SPlan where
  roots : List SField
  flat : List FlatField
  isScalar : String → Bool
  isEnum : String → Bool
  scalarValidate : String → JValue → Bool
  enumValidate : String → String → Bool

/-- Mirror of `OperationPlan::find_field` on the flat view. -/
def SPlan.findField (p : SPlan) (id : Nat) : Option FlatField :=
  p.flat.find? fun f => f.id == id

/-- The climb of `Synth::to_location_error`: push the output name of the
current field, then follow the parent link while `find_field` succeeds
(fueled; every theorem uses more fuel than the flat list is long). -/
def climb (p : SPlan) : Nat → Nat → List PathSegment
  | 0, _ => []
  | fuel + 1, id =>
    match p.findField id with
    | none => []
    | some f =>
      PathSegment.field f.outputName ::
        (match f.parent with
         | none => []
         | some pid => climb p fuel pid)

/-- Mirror of `Synth::to_location_error`: position the error at the node
and attach the root-to-node path of output names. -/
def toLocationError (p : SPlan) (e : SynthError) (node : SField) :
    Positioned SynthError :=
  { value := e, pos := node.pos,
    path := (climb p (p.flat.length + 1) node.id).reverse }

/-- Mirror of `Synth::is_array`: the declared list-ness agrees with the
value's array-ness. -/
def isArrayMatch (t : GType) (v : JValue) : Bool :=
  t.is_list == v.asArray.isSome

/-- Outcome of the `for index in data_path` walk of `Synth::iter`:
a non-`Multiple` node hit mid-path returns null early; a missing index in
a `Multiple` map panics in the source (`&v[index]`); otherwise the walk
ends on the remaining data. -/
inductive WalkResult (α : Type) where
  | earlyNull
  | crash
  | final (d : Data α)

/-- The data-path walk itself. -/
def walkPath {α : Type} : Data α → List Nat → WalkResult α
  | d, [] => .final d
  | .multiple entries, i :: rest =>
    match lookupIdx entries i with
    | some d => walkPath d rest
    | none => .crash
  | .single _, _ :: _ => .earlyNull

mutual
/-- Mirror of `Synth::iter`: consult the store for the node's id; on a hit
walk the data path (null early on a non-`Multiple`), propagate a stored
error as-is, null out a list-ness mismatch, and otherwise descend via
`iter_inner`; on a miss use the parent-provided value if any, else null. -/
def iter (p : SPlan) (store : SStore) :
    Nat → SField → Option JValue → List Nat →
    Option (Except (Positioned SynthError) JValue)
  | 0, _, _, _ => none
  | fuel + 1, node, value, dataPath =>
    match SStore.get store node.id with
    | some d =>
      match walkPath d dataPath with
      | .earlyNull => some (.ok .null)
      | .crash => none
      | .final (.single r) =>
        match r with
        | .error e => some (.error e)
        | .ok v =>
          if isArrayMatch node.typeOf v then iterInner p store fuel node v dataPath
          else some (.ok .null)
      | .final (.multiple _) => some (.ok .null)
    | none =>
      match value with
      | some v => iterInner p store fuel node v dataPath
      | none => some (.ok .null)

/-- Mirror of `Synth::iter_inner`: skipped fields yield null; a null value
is coerced by nullability (`ValueRequired` when non-nullable); scalar and
enum types validate; objects recurse into the applicable children by
source name; arrays recurse per element extending the data path; leaves
pass the value through. Validation errors are positioned at the node via
`to_location_error`; child errors propagate already positioned. -/
def iterInner (p : SPlan) (store : SStore) :
    Nat → SField → JValue → List Nat →
    Option (Except (Positioned SynthError) JValue)
  | 0, _, _, _ => none
  | fuel + 1, node, value, dataPath =>
    if node.skipFlag then some (.ok .null)
    else if value.isNull then
      if node.typeOf.is_nullable then some (.ok .null)
      else some (.error (toLocationError p (.validation .valueRequired) node))
    else if p.isScalar node.typeOf.name then
      if p.scalarValidate node.typeOf.name value then some (.ok value)
      else some (.error (toLocationError p
        (.validation (.scalarInvalid node.typeOf.name)) node))
    else if p.isEnum node.typeOf.name then
      if (match value.asStr with
          | some s => p.enumValidate node.typeOf.name s
          | none => false) then some (.ok value)
      else some (.error (toLocationError p
        (.validation (.enumInvalid node.typeOf.name)) node))
    else
      match value.asObject with
      | some obj =>
        match iterObj p store fuel
            (nestedIter node ((value.getTypeName).getD node.typeOf.name))
            obj dataPath with
        | none => none
        | some (.error e) => some (.error e)
        | some (.ok fs) => some (.ok (.obj fs))
      | none =>
        match value.asArray with
        | some arr =>
          match iterArr p store fuel node arr.enum dataPath with
          | none => none
          | some (.error e) => some (.error e)
          | some (.ok vs) => some (.ok (.arr vs))
        | none => some (.ok value)

/-- The object branch of `iter_inner`: include-checked children are read
from the object by source name and synthesized via `iter`; the first error
aborts (the `?` operator), otherwise the output-name/value pairs
accumulate in order. -/
def iterObj (p : SPlan) (store : SStore) :
    Nat → List SField → List (String × JValue) → List Nat →
    Option (Except (Positioned SynthError) (List (String × JValue)))
  | 0, _, _, _ => none
  | _ + 1, [], _, _ => some (.ok [])
  | fuel + 1, child :: rest, obj, dataPath =>
    if !child.skipFlag then
      match iter p store fuel child (JValue.getKey obj child.name) dataPath with
      | none => none
      | some (.error e) => some (.error e)
      | some (.ok v) =>
        match iterObj p store fuel rest obj dataPath with
        | none => none
        | some (.error e) => some (.error e)
        | some (.ok fs) => some (.ok ((child.outputName, v) :: fs))
    else iterObj p store fuel rest obj dataPath

/-- The array branch of `iter_inner`: one `iter_inner` call per enumerated
element with the data path extended by the index; the first error aborts. -/
def iterArr (p : SPlan) (store : SStore) :
    Nat → SField → List (Nat × JValue) → List Nat →
    Option (Except (Positioned SynthError) (List JValue))
  | 0, _, _, _ => none
  | _ + 1, _, [], _ => some (.ok [])
  | fuel + 1, node, (i, v) :: rest, dataPath =>
    match iterInner p store fuel node v (dataPath ++ [i]) with
    | none => none
    | some (.error e) => some (.error e)
    | some (.ok w) =>
      match iterArr p store fuel node rest dataPath with
      | none => none
      | some (.error e) => some (.error e)
      | some (.ok ws) => some (.ok (w :: ws))
end

/-- The root loop of `Synth::synthesize`: non-skipped roots are
synthesized in order with an empty data path; the first error aborts the
loop (the `?` operator). -/
def synthRoots (p : SPlan) (store : SStore) (fuel : Nat) :
    List SField →
    Option (Except (Positioned SynthError) (List (String × JValue)))
  | [] => some (.ok [])
  | child :: rest =>
    if !child.skipFlag then
      match iter p store fuel child none [] with
      | none => none
      | some (.error e) => some (.error e)
      | some (.ok v) =>
        match synthRoots p store fuel rest with
        | none => none
        | some (.error e) => some (.error e)
        | some (.ok fs) => some (.ok ((child.outputName, v) :: fs))
    else synthRoots p store fuel rest

/-- Mirror of `Synth::synthesize`: build the root object from the plan
roots, or return the first error produced. -/
def synthesize (p : SPlan) (store : SStore) (fuel : Nat) :
    Option (Except (Positioned SynthError) JValue) :=
  match synthRoots p store fuel p.roots with
  | none => none
  | some (.error e) => some (.error e)
  | some (.ok fs) => some (.ok (.obj fs))

end Monotail.SynthJit

namespace Monotail.SynthJit

/-- Concrete two-root plan for the partial-failure scenario: root `a`
(id 0) and sibling root `b` (id 1), both non-nullable named types. -/
def planC1 : SPlan :=
  { roots := [SField.mk 0 "a" "a" (GType.named "T" true) false none 0 [],
              SField.mk 1 "b" "b" (GType.named "T" true) false none 0 []],
    flat := [⟨0, "a", none⟩, ⟨1, "b", none⟩],
    isScalar := fun _ => false,
    isEnum := fun _ => false,
    scalarValidate := fun _ _ => false,
    enumValidate := fun _ _ => false }

/-- Store for the partial-failure scenario: field `a` failed with a
positioned resolver error, sibling `b` resolved successfully. -/
def storeC1 : SStore :=
  [(0, .single (.error ⟨.server "boom", 0, []⟩)),
   (1, .single (.ok (JValue.str "hi")))]

/-- An empty plan with trivially false schema predicates, for
single-field scenarios. -/
def planEmpty : SPlan :=
  { roots := [], flat := [],
    isScalar := fun _ => false,
    isEnum := fun _ => false,
    scalarValidate := fun _ _ => false,
    enumValidate := fun _ _ => false }

/-- C1 (amended). Partial failure is not isolated by `Synth::synthesize`:
when the store holds an error result for the first non-skipped root field,
`synthesize` returns exactly that single positioned error; the siblings'
data is discarded, because the function returns a `Result` — not a
data-plus-error-list bundle — and the `?` operator aborts the root loop at
the first stored error. -/
theorem synth_first_error_aborts (p : SPlan) (store : SStore) (fuel : Nat)
    (A : SField) (rest : List SField) (e : Positioned SynthError)
    (hroots : p.roots = A :: rest) (hskip : A.skipFlag = false)
    (hstore : SStore.get store A.id = some (.single (.error e))) :
    synthesize p store (fuel + 1) = some (.error e) := by
  unfold synthesize
  rw [hroots, synthRoots]
  simp [hskip, iter, hstore, walkPath]

/-- Witness for C1 (amended) on the concrete two-root scenario. -/
theorem synth_first_error_aborts_witness :
    planC1.roots = SField.mk 0 "a" "a" (GType.named "T" true) false none 0 []
        :: [SField.mk 1 "b" "b" (GType.named "T" true) false none 0 []]
    ∧ (SField.mk 0 "a" "a" (GType.named "T" true) false none 0 []).skipFlag = false
    ∧ SStore.get storeC1
        (SField.mk 0 "a" "a" (GType.named "T" true) false none 0 []).id
        = some (.single (.error ⟨.server "boom", 0, []⟩))
    ∧ synthesize planC1 storeC1 1 = some (.error ⟨.server "boom", 0, []⟩) :=
  ⟨rfl, rfl, rfl,
    synth_first_error_aborts planC1 storeC1 0
      (SField.mk 0 "a" "a" (GType.named "T" true) false none 0 [])
      [SField.mk 1 "b" "b" (GType.named "T" true) false none 0 []]
      ⟨.server "boom", 0, []⟩ rfl rfl rfl⟩

/-- C1 counterexample: root `a` errored while sibling `b` succeeded in the
store, yet `synthesize` returns only the positioned error — no response
object bundling `b`'s data with an error list is produced, so a single
failed field does turn synthesis into a total failure. -/
theorem synth_partial_failure_counterexample :
    synthesize planC1 storeC1 2 = some (.error ⟨.server "boom", 0, []⟩)
    ∧ synthesize planC1 storeC1 2
        ≠ some (.ok (JValue.obj [("a", JValue.null), ("b", JValue.str "hi")])) := by
  have h1 : synthesize planC1 storeC1 2
      = some (.error ⟨.server "boom", 0, []⟩) := rfl
  refine ⟨h1, ?_⟩
  rw [h1]
  simp

/-- Helper: replacing the children leaves the skip evaluation unchanged. -/
theorem SField.withNested_skipFlag (f : SField) (cs : List SField) :
    (f.withNested cs).skipFlag = f.skipFlag := by
  cases f
  rfl

/-- Helper: replacing the children leaves the output type unchanged. -/
theorem SField.withNested_typeOf (f : SField) (cs : List SField) :
    (f.withNested cs).typeOf = f.typeOf := by
  cases f
  rfl

/-- C3 (amended). Null coercion during synthesis for non-skipped fields:
on a JSON null value, a non-nullable field yields the `ValueRequired`
validation error positioned at the field, and a nullable field yields null
— with a result independent of the field's children (they are not
visited). The skip check of `iter_inner` precedes the null coercion, hence
the non-skipped hypothesis. -/
theorem synth_null_coercion (p : SPlan) (store : SStore) (fuel : Nat) :
    (∀ (node : SField) (dataPath : List Nat), node.skipFlag = false →
      node.typeOf.is_nullable = false →
      iterInner p store (fuel + 1) node .null dataPath
        = some (.error (toLocationError p (.validation .valueRequired) node)))
    ∧ (∀ (node : SField) (dataPath : List Nat), node.skipFlag = false →
      node.typeOf.is_nullable = true →
      iterInner p store (fuel + 1) node .null dataPath = some (.ok .null)
      ∧ ∀ cs : List SField,
        iterInner p store (fuel + 1) (node.withNested cs) .null dataPath
          = some (.ok .null)) := by
  constructor
  · intro node dataPath hskip hnn
    rw [iterInner]
    simp [hskip, JValue.isNull, hnn]
  · intro node dataPath hskip hn
    constructor
    · rw [iterInner]
      simp [hskip, JValue.isNull, hn]
    · intro cs
      rw [iterInner]
      simp [SField.withNested_skipFlag, SField.withNested_typeOf, hskip,
        JValue.isNull, hn]

/-- Witness for C3 (amended): a non-skipped non-nullable field errors on
null; a non-skipped nullable field yields null whatever its children. -/
theorem synth_null_coercion_witness :
    ((SField.mk 0 "a" "a" (GType.named "T" true) false none 0 []).skipFlag = false
    ∧ (SField.mk 0 "a" "a" (GType.named "T" true) false none 0 []).typeOf.is_nullable
        = false
    ∧ iterInner planEmpty [] 1
        (SField.mk 0 "a" "a" (GType.named "T" true) false none 0 []) .null []
      = some (.error (toLocationError planEmpty (.validation .valueRequired)
          (SField.mk 0 "a" "a" (GType.named "T" true) false none 0 []))))
    ∧ ((SField.mk 1 "b" "b" (GType.named "T" false) false none 0 []).skipFlag = false
    ∧ (SField.mk 1 "b" "b" (GType.named "T" false) false none 0 []).typeOf.is_nullable
        = true
    ∧ iterInner planEmpty [] 1
        (SField.mk 1 "b" "b" (GType.named "T" false) false none 0 []) .null []
      = some (.ok .null)
    ∧ ∀ cs : List SField,
        iterInner planEmpty [] 1
          ((SField.mk 1 "b" "b" (GType.named "T" false) false none 0 []).withNested cs)
          .null []
        = some (.ok .null)) := by
  have h1 := (synth_null_coercion planEmpty [] 0).1
    (SField.mk 0 "a" "a" (GType.named "T" true) false none 0 []) [] rfl rfl
  have h2 := (synth_null_coercion planEmpty [] 0).2
    (SField.mk 1 "b" "b" (GType.named "T" false) false none 0 []) [] rfl rfl
  exact ⟨⟨rfl, rfl, h1⟩, ⟨rfl, rfl, h2.1, h2.2⟩⟩

/-- C3 counterexample: a skipped field with a non-nullable type and a null
value yields `Ok(null)` and no `ValueRequired` error, because `iter_inner`
returns null for skipped fields before the null coercion runs — refuting
the claim's unconditional "for every field node". -/
theorem synth_null_skip_counterexample :
    iterInner planEmpty [] 1
      (SField.mk 0 "a" "a" (GType.named "T" true) true none 0 []) .null []
      = some (.ok .null)
    ∧ iterInner planEmpty [] 1
        (SField.mk 0 "a" "a" (GType.named "T" true) true none 0 []) .null []
      ≠ some (.error (toLocationError planEmpty (.validation .valueRequired)
          (SField.mk 0 "a" "a" (GType.named "T" true) true none 0 []))) := by
  have h1 : iterInner planEmpty [] 1
      (SField.mk 0 "a" "a" (GType.named "T" true) true none 0 []) .null []
      = some (.ok .null) := rfl
  refine ⟨h1, ?_⟩
  rw [h1]
  simp

/-- C10. Silent null on shape mismatch: when the store has data for the
field and either the data-path walk hits a non-`Multiple` node, or the
walk ends on a successful `Single` value whose array-ness disagrees with
the field's declared list-ness, `Synth::iter` yields `Ok(null)` — not an
error entry. -/
theorem synth_silent_null_on_mismatch (p : SPlan) (store : SStore) (fuel : Nat) :
    (∀ (node : SField) (value : Option JValue) (dataPath : List Nat)
        (d : Data SRes),
      SStore.get store node.id = some d →
      walkPath d dataPath = .earlyNull →
      iter p store (fuel + 1) node value dataPath = some (.ok .null))
    ∧ (∀ (node : SField) (value : Option JValue) (dataPath : List Nat)
        (d : Data SRes) (v : JValue),
      SStore.get store node.id = some d →
      walkPath d dataPath = .final (.single (.ok v)) →
      isArrayMatch node.typeOf v = false →
      iter p store (fuel + 1) node value dataPath = some (.ok .null)) := by
  constructor
  · intro node value dataPath d hget hwalk
    simp [iter, hget, hwalk]
  · intro node value dataPath d v hget hwalk hmis
    simp [iter, hget, hwalk, hmis]

/-- Witness for C10: a non-list field whose store entry is an array value
(shape mismatch), and a data path indexing into a `Single` entry — both
yield null. -/
theorem synth_silent_null_on_mismatch_witness :
    (SStore.get [(0, Data.single (Except.ok (JValue.arr [])))]
        (SField.mk 0 "a" "a" (GType.named "T" true) false none 0 []).id
      = some (Data.single (Except.ok (JValue.arr [])))
    ∧ walkPath (α := SRes) (Data.single (Except.ok (JValue.arr []))) ([] : List Nat)
      = WalkResult.final (Data.single (Except.ok (JValue.arr [])))
    ∧ isArrayMatch (SField.mk 0 "a" "a" (GType.named "T" true) false none 0 []).typeOf
        (JValue.arr []) = false
    ∧ iter planEmpty [(0, Data.single (Except.ok (JValue.arr [])))] 1
        (SField.mk 0 "a" "a" (GType.named "T" true) false none 0 []) none []
      = some (.ok .null))
    ∧ (SStore.get [(0, Data.single (Except.ok JValue.null))]
        (SField.mk 0 "a" "a" (GType.named "T" true) false none 0 []).id
      = some (Data.single (Except.ok JValue.null))
    ∧ walkPath (α := SRes) (Data.single (Except.ok JValue.null)) [0]
      = WalkResult.earlyNull
    ∧ iter planEmpty [(0, Data.single (Except.ok JValue.null))] 1
        (SField.mk 0 "a" "a" (GType.named "T" true) false none 0 []) none [0]
      = some (.ok .null)) := by
  have h2 := (synth_silent_null_on_mismatch planEmpty
      [(0, Data.single (Except.ok (JValue.arr [])))] 0).2
    (SField.mk 0 "a" "a" (GType.named "T" true) false none 0 []) none []
    (Data.single (Except.ok (JValue.arr []))) (JValue.arr []) rfl rfl rfl
  have h1 := (synth_silent_null_on_mismatch planEmpty
      [(0, Data.single (Except.ok JValue.null))] 0).1
    (SField.mk 0 "a" "a" (GType.named "T" true) false none 0 []) none [0]
    (Data.single (Except.ok JValue.null)) rfl rfl
  exact ⟨⟨rfl, rfl, rfl, h2⟩, ⟨rfl, rfl, h1⟩⟩

end Monotail.SynthJit

namespace Monotail.Builder

/-!
Embedding of the experimental query-plan builder of
`src/core/ir/jit/mod.rs` (`QueryPlanBuilder::resolve_selection_set`,
`QueryPlanBuilder::create_field_set`) and of the children-view conversion
of `src/core/ir/jit/model.rs` (`Field::into_children`,
`ExecutionPlan::new`). Selection sets are a mutual inductive so that the
builder recursion is structural and computable. The source collects field
arguments into a `HashMap` before iterating; here they are processed in
the given order, which none of the claims depend on.
-/

/-- Modelled from the spec: a field definition as the field index returns
it (`field_index.rs` is absent from the snapshot): output type, optional
resolver IR, and argument definitions by name. -/
structure FieldDefB where
  ofType : GType
  resolver : Option Nat
  args : List (String × GType × Option JValue)

/-- Mirror of `field_def.get_arg(name)`. -/
def FieldDefB.getArg (fd : FieldDefB) (name : String) :
    Option (GType × Option JValue) :=
  (fd.args.find? fun a => a.1 == name).map (·.2)

/-- Mirror of `QueryField`: an output field or an input field; only the
former carries a resolver. -/
inductive QueryFieldB where
  | field (fd : FieldDefB)
  | inputField (fd : FieldDefB)

/-- The output type of either `QueryField` variant. -/
def QueryFieldB.ofType : QueryFieldB → GType
  | .field fd => fd.ofType
  | .inputField fd => fd.ofType

/-- The resolver of a `QueryField`: present only on the `Field` variant. -/
def QueryFieldB.resolver : QueryFieldB → Option Nat
  | .field fd => fd.resolver
  | .inputField _ => none

/-- Argument lookup on either variant. -/
def QueryFieldB.getArg : QueryFieldB → String → Option (GType × Option JValue)
  | .field fd, n => fd.getArg n
  | .inputField fd, n => fd.getArg n

/-- Modelled from the spec: the `FieldIndex` contract —
`get_field(type_name, field_name)` and `get_query()`. -/
structure IndexB where
  getField : String → String → Option QueryFieldB
  queryName : String

mutual
/-- A parsed selection, mirroring `async_graphql` `Selection`: the builder
handles only `Selection::Field` (its `if let`); fragment spreads and
inline fragments fall through. -/
inductive Selection where
  | field (name : String) (args : List (String × JValue)) (sel : SelectionList)
  | fragmentSpread (name : String)
  | inline (cond : Option String) (sel : SelectionList)

/-- A selection set, as a mutual inductive list so the builder recursion
is structural. -/
inductive SelectionList where
  | nil
  | cons (s : Selection) (rest : SelectionList)
end

/-- Mirror of the builder `Arg`: generated id, name, declared type, the
bound literal value and the declared default. -/
structure PArg where
  id : Nat
  name : String
  typeOf : GType
  value : Option JValue
  defaultValue : Option JValue

/-- Mirror of the builder `Field<Parent>`: generated id, name, cloned
resolver, output type, resolved args, and the parent link (`refs`). -/
structure PField where
  id : Nat
  name : String
  ir : Option Nat
  typeOf : GType
  args : List PArg
  parent : Option Nat

/-- The argument-resolution loop of `resolve_selection_set`: supplied
arguments whose name the field declares get a fresh `ArgId`; unknown
argument names are skipped. Returns the args and the advanced counter. -/
def mkArgs (fd : QueryFieldB) : List (String × JValue) → Nat → List PArg × Nat
  | [], a => ([], a)
  | (argName, value) :: rest, a =>
    match fd.getArg argName with
    | some tyDv =>
      let more := mkArgs fd rest (a + 1)
      (PArg.mk a argName tyDv.1 (some value) tyDv.2 :: more.1, more.2)
    | none => mkArgs fd rest a

/-- Mirror of `QueryPlanBuilder::resolve_selection_set`: walk the
selections against the index under the current type; on a hit, resolve
args, take a fresh dense `FieldId`, recurse into the sub-selections with
the field's output type as new context and the fresh id as parent, and
emit the field followed by its subtree (`merge_right` appends); on an
index miss — and for non-field selections — continue with the remaining
selections. The `anyhow::Result` signature is kept although no arm
produces an error. -/
def resolveSelectionSet (idx : IndexB) :
    SelectionList → Nat → Nat → String → Option Nat →
    Except String (List PField × Nat × Nat)
  | .nil, i, a, _, _ => .ok ([], i, a)
  | .cons (.field name fargs fsel) rest, i, a, t, par =>
    match idx.getField t name with
    | none => resolveSelectionSet idx rest i a t par
    | some fd =>
      let pa := mkArgs fd fargs a
      match resolveSelectionSet idx fsel (i + 1) pa.2 fd.ofType.name (some i) with
      | .error e => .error e
      | .ok (childFields, i2, a2) =>
        match resolveSelectionSet idx rest i2 a2 t par with
        | .error e => .error e
        | .ok (fs, i3, a3) =>
          .ok ((PField.mk i name fd.resolver fd.ofType pa.1 par :: childFields)
            ++ fs, i3, a3)
  | .cons (.fragmentSpread _) rest, i, a, t, par =>
    resolveSelectionSet idx rest i a t par
  | .cons (.inline _ _) rest, i, a, t, par =>
    resolveSelectionSet idx rest i a t par

/-- Mirror of `DocumentOperations`: a sole anonymous operation or named
operations in document order. -/
inductive DocOps where
  | single (sel : SelectionList)
  | multiple (ops : List (String × SelectionList))

/-- The parsed executable document: fragments and operations. -/
structure DocumentB where
  fragments : List SelectionList
  operations : DocOps

/-- The replace-style folds of `create_field_set`: each iteration
overwrites the accumulated fields with the freshly resolved selection set
(the `fields = self.resolve_selection_set(...)` assignments), while the id
counters keep advancing. -/
def resolveAll (idx : IndexB) :
    List SelectionList → List PField → Nat → Nat →
    Except String (List PField × Nat × Nat)
  | [], fs, i, a => .ok (fs, i, a)
  | s :: rest, _, i, a =>
    match resolveSelectionSet idx s i a idx.queryName none with
    | .error e => .error e
    | .ok (fs1, i1, a1) => resolveAll idx rest fs1 i1 a1

/-- Mirror of `QueryPlanBuilder::create_field_set`: fold the fragments
(each replacing the fields), then the operations — the single anonymous
operation, or every named operation in turn, each replacing the fields. -/
def createFieldSet (idx : IndexB) (doc : DocumentB) :
    Except String (List PField) :=
  match resolveAll idx doc.fragments [] 0 0 with
  | .error e => .error e
  | .ok (fs0, i0, a0) =>
    match doc.operations with
    | .single s =>
      match resolveSelectionSet idx s i0 a0 idx.queryName none with
      | .error e => .error e
      | .ok (fs, _, _) => .ok fs
    | .multiple ops =>
      match resolveAll idx (ops.map (·.2)) fs0 i0 a0 with
      | .error e => .error e
      | .ok (fs, _, _) => .ok fs

/-- Mirror of the children-view `Field<Children>` of `model.rs` (children
empty stands for `refs = None`). -/
inductive CField where
  | mk (id : Nat) (name : String) (ir : Option Nat) (typeOf : GType)
      (children : List CField)

mutual
/-- Fueled mirror of `Field::into_children`: collect the fields whose
parent link points at this field and convert each recursively against the
same flat vector; `none` is fuel exhaustion (the source recursion is
unbounded — its termination on builder output is claim C9). -/
def intoChildren : Nat → PField → List PField → Option CField
  | 0, _, _ => none
  | fuel + 1, f, fields =>
    match intoChildrenList fuel
        (fields.filter fun g => g.parent == some f.id) fields with
    | none => none
    | some cs => some (.mk f.id f.name f.ir f.typeOf cs)

/-- Fueled conversion of a list of fields. -/
def intoChildrenList : Nat → List PField → List PField → Option (List CField)
  | 0, _, _ => none
  | _ + 1, [], _ => some []
  | fuel + 1, g :: gs, fields =>
    match intoChildren fuel g fields with
    | none => none
    | some c =>
      match intoChildrenList fuel gs fields with
      | none => none
      | some cs => some (c :: cs)
end

/-- Fueled mirror of the children-view construction in
`ExecutionPlan::new`: every root of the flat vector (no parent link) is
converted by `into_children`. -/
def planNewChildren (fuel : Nat) (fields : List PField) :
    Option (List CField) :=
  intoChildrenList fuel (fields.filter fun f => f.parent == none) fields

/-- Fueled parent-chain walk: follow parent links through the flat vector
until a root (no parent) is reached; `false` when the fuel runs out or a
parent id is dangling. -/
def chasesRoot (fields : List PField) : Nat → PField → Bool
  | 0, _ => false
  | fuel + 1, f =>
    match f.parent with
    | none => true
    | some pv =>
      match fields.find? (fun g => g.id == pv) with
      | none => false
      | some g => chasesRoot fields fuel g

end Monotail.Builder

namespace Monotail.Builder

/-- The builder recursion has no failing arm: every selection set resolves
to `Ok`. -/
theorem resolve_never_errors (idx : IndexB) (ss : SelectionList) :
    ∀ (i a : Nat) (t : String) (par : Option Nat),
    ∃ r, resolveSelectionSet idx ss i a t par = .ok r := by
  match ss with
  | .nil => exact fun i a t par => ⟨([], i, a), rfl⟩
  | .cons (.field name fargs fsel) rest =>
    intro i a t par
    cases hf : idx.getField t name with
    | none =>
      simp only [resolveSelectionSet, hf]
      exact resolve_never_errors idx rest i a t par
    | some fd =>
      simp only [resolveSelectionSet, hf]
      obtain ⟨⟨cf, i2, a2⟩, h1⟩ :=
        resolve_never_errors idx fsel (i + 1) (mkArgs fd fargs a).2
          fd.ofType.name (some i)
      obtain ⟨⟨fs, i3, a3⟩, h2⟩ := resolve_never_errors idx rest i2 a2 t par
      simp only [h1, h2]
      exact ⟨_, rfl⟩
  | .cons (.fragmentSpread n) rest =>
    intro i a t par
    simp only [resolveSelectionSet]
    exact resolve_never_errors idx rest i a t par
  | .cons (.inline c s) rest =>
    intro i a t par
    simp only [resolveSelectionSet]
    exact resolve_never_errors idx rest i a t par

/-- The replace-fold never errors either. -/
theorem resolveAll_never_errors (idx : IndexB) (ss : List SelectionList) :
    ∀ (fs : List PField) (i a : Nat),
    ∃ r, resolveAll idx ss fs i a = .ok r := by
  induction ss with
  | nil => exact fun fs i a => ⟨(fs, i, a), rfl⟩
  | cons s rest ih =>
    intro fs i a
    obtain ⟨⟨fs1, i1, a1⟩, h1⟩ :=
      resolve_never_errors idx s i a idx.queryName none
    simp only [resolveAll, h1]
    exact ih fs1 i1 a1

/-- C7 (corrected claim, amended). Index misses are silently skipped: a
selected field whose `(current type, field name)` lookup misses
contributes nothing to the plan — the builder continues with the remaining
selections under unchanged counters — and plan construction never returns
a build error on any input. -/
theorem builder_index_miss_skips (idx : IndexB) :
    (∀ (name : String) (fargs : List (String × JValue)) (fsel : SelectionList)
        (rest : SelectionList) (i a : Nat) (t : String) (par : Option Nat),
      idx.getField t name = none →
      resolveSelectionSet idx (.cons (.field name fargs fsel) rest) i a t par
        = resolveSelectionSet idx rest i a t par)
    ∧ (∀ (ss : SelectionList) (i a : Nat) (t : String) (par : Option Nat),
      ∃ r, resolveSelectionSet idx ss i a t par = .ok r)
    ∧ (∀ doc : DocumentB, ∃ fs, createFieldSet idx doc = .ok fs) := by
  refine ⟨?_, fun ss => resolve_never_errors idx ss, ?_⟩
  · intro name fargs fsel rest i a t par h
    simp only [resolveSelectionSet, h]
  · intro doc
    obtain ⟨⟨fs0, i0, a0⟩, h0⟩ := resolveAll_never_errors idx doc.fragments [] 0 0
    cases hops : doc.operations with
    | single s =>
      obtain ⟨⟨fs, i1, a1⟩, h1⟩ :=
        resolve_never_errors idx s i0 a0 idx.queryName none
      exact ⟨fs, by simp only [createFieldSet, h0, hops, h1]⟩
    | multiple ops =>
      obtain ⟨⟨fs, i1, a1⟩, h1⟩ :=
        resolveAll_never_errors idx (ops.map (·.2)) fs0 i0 a0
      exact ⟨fs, by simp only [createFieldSet, h0, hops, h1]⟩

/-- Witness for C7 (amended): a concrete miss is skipped with the plan
still `Ok` (and empty). -/
theorem builder_index_miss_skips_witness :
    ((IndexB.mk (fun _ _ => none) "Query").getField "Query" "foo" = none
    ∧ resolveSelectionSet (IndexB.mk (fun _ _ => none) "Query")
        (.cons (.field "foo" [] .nil) .nil) 0 0 "Query" none
      = resolveSelectionSet (IndexB.mk (fun _ _ => none) "Query") .nil 0 0 "Query" none)
    ∧ (∃ fs, createFieldSet (IndexB.mk (fun _ _ => none) "Query")
        (DocumentB.mk [] (.single (.cons (.field "foo" [] .nil) .nil))) = .ok fs) :=
  ⟨⟨rfl, (builder_index_miss_skips (IndexB.mk (fun _ _ => none) "Query")).1
      "foo" [] .nil .nil 0 0 "Query" none rfl⟩,
   (builder_index_miss_skips (IndexB.mk (fun _ _ => none) "Query")).2.2
     (DocumentB.mk [] (.single (.cons (.field "foo" [] .nil) .nil)))⟩

/-- C7 counterexample: with an index that knows no fields, building the
single-operation document `{ foo }` yields `Ok` with an empty plan — the
selection is silently skipped, no build error is returned. -/
theorem builder_index_miss_counterexample :
    createFieldSet (IndexB.mk (fun _ _ => none) "Query")
      (DocumentB.mk [] (.single (.cons (.field "foo" [] .nil) .nil)))
      = .ok []
    ∧ ∀ e : String,
      createFieldSet (IndexB.mk (fun _ _ => none) "Query")
        (DocumentB.mk [] (.single (.cons (.field "foo" [] .nil) .nil)))
        ≠ .error e := by
  refine ⟨rfl, ?_⟩
  intro e h
  exact Except.noConfusion
    ((rfl : createFieldSet (IndexB.mk (fun _ _ => none) "Query")
      (DocumentB.mk [] (.single (.cons (.field "foo" [] .nil) .nil)))
      = .ok []).symm.trans h)

end Monotail.Builder

namespace Monotail.Builder

/-- Appending a final selection set to the replace-fold: the outcome is
the resolution of the final set alone, at the counters accumulated over
the earlier sets (whose fields are discarded). -/
theorem resolveAll_append_last (idx : IndexB) (ss : List SelectionList)
    (s : SelectionList) :
    ∀ (fs : List PField) (i a : Nat),
    ∃ (i1 a1 : Nat) (fs2 : List PField) (i2 a2 : Nat),
      resolveSelectionSet idx s i1 a1 idx.queryName none = .ok (fs2, i2, a2)
      ∧ resolveAll idx (ss ++ [s]) fs i a = .ok (fs2, i2, a2) := by
  induction ss with
  | nil =>
    intro fs i a
    obtain ⟨⟨fs2, i2, a2⟩, h⟩ := resolve_never_errors idx s i a idx.queryName none
    refine ⟨i, a, fs2, i2, a2, h, ?_⟩
    simp only [List.nil_append, resolveAll, h]
  | cons s0 rest ih =>
    intro fs i a
    obtain ⟨⟨fs1, i1, a1⟩, h1⟩ :=
      resolve_never_errors idx s0 i a idx.queryName none
    obtain ⟨j1, b1, fs2, i2, a2, hs, hall⟩ := ih fs1 i1 a1
    refine ⟨j1, b1, fs2, i2, a2, hs, ?_⟩
    simp only [List.cons_append, resolveAll, h1, List.append_eq]
    exact hall

/-- C8 (corrected claim, amended). Operation selection without an explicit
name: every iteration of the operation loop in `create_field_set`
overwrites the accumulated fields, so with multiple operations the plan
consists of exactly the fields of the last operation visited (the id
counters continue across the earlier operations); with the sole anonymous
operation, of that operation's fields. Fields of the other operations do
not appear in the plan. -/
theorem builder_keeps_last_operation (idx : IndexB) :
    (∀ (frags : List SelectionList) (front : List (String × SelectionList))
        (lastName : String) (lastSel : SelectionList),
      ∃ (i a : Nat) (fs : List PField) (i2 a2 : Nat),
        resolveSelectionSet idx lastSel i a idx.queryName none = .ok (fs, i2, a2)
        ∧ createFieldSet idx
            (DocumentB.mk frags (.multiple (front ++ [(lastName, lastSel)])))
          = .ok fs)
    ∧ (∀ (frags : List SelectionList) (s : SelectionList),
      ∃ (i a : Nat) (fs : List PField) (i2 a2 : Nat),
        resolveSelectionSet idx s i a idx.queryName none = .ok (fs, i2, a2)
        ∧ createFieldSet idx (DocumentB.mk frags (.single s)) = .ok fs) := by
  constructor
  · intro frags front lastName lastSel
    obtain ⟨⟨fs0, i0, a0⟩, h0⟩ := resolveAll_never_errors idx frags [] 0 0
    obtain ⟨i1, a1, fs2, i2, a2, hs, hall⟩ :=
      resolveAll_append_last idx (front.map (·.2)) lastSel fs0 i0 a0
    refine ⟨i1, a1, fs2, i2, a2, hs, ?_⟩
    have hmap : (front ++ [(lastName, lastSel)]).map (·.2)
        = front.map (·.2) ++ [lastSel] := by simp
    simp only [createFieldSet, h0, hmap, hall]
  · intro frags s
    obtain ⟨⟨fs0, i0, a0⟩, h0⟩ := resolveAll_never_errors idx frags [] 0 0
    obtain ⟨⟨fs, i2, a2⟩, hs⟩ :=
      resolve_never_errors idx s i0 a0 idx.queryName none
    exact ⟨i0, a0, fs, i2, a2, hs, by simp only [createFieldSet, h0, hs]⟩

/-- The two-operation index for the operation-selection counterexample:
`Query.a : A` and `Query.b : B`, no resolvers. -/
def idxTwoOps : IndexB :=
  { getField := fun t f =>
      if t == "Query" && f == "a" then
        some (.field ⟨GType.named "A" false, none, []⟩)
      else if t == "Query" && f == "b" then
        some (.field ⟨GType.named "B" false, none, []⟩)
      else none,
    queryName := "Query" }

/-- The two named operations `opA { a }` and `opB { b }`. -/
def docTwoOps : DocumentB :=
  { fragments := [],
    operations := .multiple
      [("opA", .cons (.field "a" [] .nil) .nil),
       ("opB", .cons (.field "b" [] .nil) .nil)] }

/-- C8 counterexample: for the document with named operations
`opA { a }, opB { b }` the built plan holds only `opB`'s field `b`
(with id 1, the counter having advanced over `opA`) — not the first named
operation's field `a` as the claim states. -/
theorem builder_first_operation_counterexample :
    createFieldSet idxTwoOps docTwoOps
      = .ok [PField.mk 1 "b" none (GType.named "B" false) [] none]
    ∧ createFieldSet idxTwoOps docTwoOps
      ≠ .ok [PField.mk 0 "a" none (GType.named "A" false) [] none] := by
  have h1 : createFieldSet idxTwoOps docTwoOps
      = .ok [PField.mk 1 "b" none (GType.named "B" false) [] none] := rfl
  refine ⟨h1, ?_⟩
  rw [h1]
  simp

end Monotail.Builder

namespace Monotail.Builder

/-- The structural invariant of `resolve_selection_set` output: the id
counter only grows, every emitted field's id lies in the consumed counter
range, every parent link points strictly below the field's own id, and
every parent link is either the supplied parent or another emitted
field. -/
theorem resolve_invariant (idx : IndexB) (ss : SelectionList) :
    ∀ (i a : Nat) (t : String) (par : Option Nat) (fs : List PField)
      (i2 a2 : Nat),
    resolveSelectionSet idx ss i a t par = .ok (fs, i2, a2) →
    (∀ pv, par = some pv → pv < i) →
    i ≤ i2
    ∧ (∀ f ∈ fs, i ≤ f.id ∧ f.id < i2)
    ∧ (∀ f ∈ fs, ∀ pv, f.parent = some pv → pv < f.id)
    ∧ (∀ f ∈ fs, f.parent = par ∨ ∃ g ∈ fs, f.parent = some g.id) := by
  match ss with
  | .nil =>
    intro i a t par fs i2 a2 h hpar
    simp only [resolveSelectionSet, Except.ok.injEq, Prod.mk.injEq] at h
    obtain ⟨rfl, rfl, rfl⟩ := h
    refine ⟨Nat.le_refl i, ?_, ?_, ?_⟩ <;> simp
  | .cons (.field name fargs fsel) rest =>
    intro i a t par fs i2 a2 h hpar
    cases hf : idx.getField t name with
    | none =>
      simp only [resolveSelectionSet, hf] at h
      exact resolve_invariant idx rest i a t par fs i2 a2 h hpar
    | some fd =>
      cases hchild : resolveSelectionSet idx fsel (i + 1) (mkArgs fd fargs a).2
          fd.ofType.name (some i) with
      | error e => simp [resolveSelectionSet, hf, hchild] at h
      | ok rc =>
        obtain ⟨cf, ic, ac⟩ := rc
        cases hrest : resolveSelectionSet idx rest ic ac t par with
        | error e => simp [resolveSelectionSet, hf, hchild, hrest] at h
        | ok rr =>
          obtain ⟨fsr, i3, a3⟩ := rr
          simp only [resolveSelectionSet, hf, hchild, hrest, Except.ok.injEq,
            Prod.mk.injEq] at h
          obtain ⟨hfs, hi2, ha2⟩ := h
          subst hi2
          subst ha2
          have ihc := resolve_invariant idx fsel (i + 1) (mkArgs fd fargs a).2
            fd.ofType.name (some i) cf ic ac hchild
            (by intro pv hpv; injection hpv with h0; omega)
          have hici : i + 1 ≤ ic := ihc.1
          have ihr := resolve_invariant idx rest ic ac t par fsr i3 a3 hrest
            (by intro pv hpv; have := hpar pv hpv; omega)
          have hic3 : ic ≤ i3 := ihr.1
          subst hfs
          refine ⟨by omega, ?_, ?_, ?_⟩
          · intro f hf0
            rcases List.mem_cons.mp hf0 with rfl | hf1
            · refine ⟨Nat.le_refl i, ?_⟩
              show i < i3
              omega
            · rcases List.mem_append.mp hf1 with hf2 | hf2
              · have := ihc.2.1 f hf2
                omega
              · have := ihr.2.1 f hf2
                omega
          · intro f hf0
            rcases List.mem_cons.mp hf0 with rfl | hf1
            · intro pv hpv
              simp only at hpv
              have := hpar pv hpv
              simpa using this
            · rcases List.mem_append.mp hf1 with hf2 | hf2
              · exact ihc.2.2.1 f hf2
              · exact ihr.2.2.1 f hf2
          · intro f hf0
            rcases List.mem_cons.mp hf0 with rfl | hf1
            · exact Or.inl rfl
            · rcases List.mem_append.mp hf1 with hf2 | hf2
              · rcases ihc.2.2.2 f hf2 with hp | ⟨g, hg, hgp⟩
                · refine Or.inr ⟨PField.mk i name fd.resolver fd.ofType
                    (mkArgs fd fargs a).1 par, by simp, ?_⟩
                  simpa using hp
                · exact Or.inr ⟨g, by simp [List.mem_append.mpr (Or.inl hg)], hgp⟩
              · rcases ihr.2.2.2 f hf2 with hp | ⟨g, hg, hgp⟩
                · exact Or.inl hp
                · exact Or.inr ⟨g, by simp [List.mem_append.mpr (Or.inr hg)], hgp⟩
  | .cons (.fragmentSpread n) rest =>
    intro i a t par fs i2 a2 h hpar
    simp only [resolveSelectionSet] at h
    exact resolve_invariant idx rest i a t par fs i2 a2 h hpar
  | .cons (.inline c s) rest =>
    intro i a t par fs i2 a2 h hpar
    simp only [resolveSelectionSet] at h
    exact resolve_invariant idx rest i a t par fs i2 a2 h hpar

end Monotail.Builder

namespace Monotail.Builder

/-- The acyclicity core: parent links point strictly downward in id, and
every parent id belongs to a field of the same vector. -/
def GoodFields (fs : List PField) : Prop :=
  (∀ f ∈ fs, ∀ pv, f.parent = some pv → pv < f.id)
  ∧ (∀ f ∈ fs, ∀ pv, f.parent = some pv → ∃ g ∈ fs, g.id = pv)

/-- A top-level resolution (no parent) produces good fields. -/
theorem resolve_good (idx : IndexB) (s : SelectionList) (i a : Nat)
    (t : String) (fs : List PField) (i2 a2 : Nat)
    (h : resolveSelectionSet idx s i a t none = .ok (fs, i2, a2)) :
    GoodFields fs := by
  have hinv := resolve_invariant idx s i a t none fs i2 a2 h
    (by intro pv hpv; cases hpv)
  refine ⟨hinv.2.2.1, ?_⟩
  intro f hf pv hpv
  rcases hinv.2.2.2 f hf with hcontra | ⟨g, hg, hgp⟩
  · rw [hcontra] at hpv
    cases hpv
  · rw [hgp] at hpv
    injection hpv with h0
    exact ⟨g, hg, h0⟩

/-- The replace-fold preserves goodness of the surviving fields. -/
theorem resolveAll_good (idx : IndexB) (ss : List SelectionList) :
    ∀ (fs : List PField) (i a : Nat) (fs2 : List PField) (i2 a2 : Nat),
    GoodFields fs → resolveAll idx ss fs i a = .ok (fs2, i2, a2) →
    GoodFields fs2 := by
  induction ss with
  | nil =>
    intro fs i a fs2 i2 a2 hgood h
    simp only [resolveAll, Except.ok.injEq, Prod.mk.injEq] at h
    obtain ⟨rfl, rfl, rfl⟩ := h
    exact hgood
  | cons s rest ih =>
    intro fs i a fs2 i2 a2 hgood h
    cases hs : resolveSelectionSet idx s i a idx.queryName none with
    | error e => simp [resolveAll, hs] at h
    | ok r =>
      obtain ⟨fs1, i1, a1⟩ := r
      simp only [resolveAll, hs] at h
      exact ih fs1 i1 a1 fs2 i2 a2
        (resolve_good idx s i a idx.queryName fs1 i1 a1 hs) h

/-- Every plan the builder produces has good fields. -/
theorem createFieldSet_good (idx : IndexB) (doc : DocumentB)
    (fields : List PField) (h : createFieldSet idx doc = .ok fields) :
    GoodFields fields := by
  have hempty : GoodFields [] := by
    constructor <;> intro f hf <;> cases hf
  cases hall : resolveAll idx doc.fragments [] 0 0 with
  | error e => simp [createFieldSet, hall] at h
  | ok r0 =>
    obtain ⟨fs0, i0, a0⟩ := r0
    have hgood0 : GoodFields fs0 :=
      resolveAll_good idx doc.fragments [] 0 0 fs0 i0 a0 hempty hall
    cases hops : doc.operations with
    | single s =>
      cases hs : resolveSelectionSet idx s i0 a0 idx.queryName none with
      | error e => simp [createFieldSet, hall, hops, hs] at h
      | ok r =>
        obtain ⟨fs, i1, a1⟩ := r
        simp only [createFieldSet, hall, hops, hs, Except.ok.injEq] at h
        subst h
        exact resolve_good idx s i0 a0 idx.queryName fs i1 a1 hs
    | multiple ops =>
      cases hm : resolveAll idx (ops.map (·.2)) fs0 i0 a0 with
      | error e => simp [createFieldSet, hall, hops, hm] at h
      | ok r =>
        obtain ⟨fs, i1, a1⟩ := r
        simp only [createFieldSet, hall, hops, hm, Except.ok.injEq] at h
        subst h
        exact resolveAll_good idx (ops.map (·.2)) fs0 i0 a0 fs i1 a1 hgood0 hm

/-- Counting with a strictly weaker predicate that excludes a present
witness gives a strictly smaller count. -/
theorem countP_lt_of_witness {α : Type} (l : List α) (p q : α → Bool)
    (hpq : ∀ x ∈ l, p x = true → q x = true) (w : α) (hw : w ∈ l)
    (hqw : q w = true) (hpw : p w = false) :
    l.countP p < l.countP q := by
  induction l with
  | nil => cases hw
  | cons x xs ih =>
    have hxs : ∀ y ∈ xs, p y = true → q y = true := by
      intro y hy
      exact hpq y (List.mem_cons_of_mem x hy)
    rcases List.mem_cons.mp hw with rfl | hx
    · have hle : xs.countP p ≤ xs.countP q := List.countP_mono_left hxs
      rw [List.countP_cons, List.countP_cons, hpw, hqw]
      simp only [Bool.false_eq_true, if_true, if_false]
      omega
    · have hlt : xs.countP p < xs.countP q := ih hxs hx
      rw [List.countP_cons, List.countP_cons]
      have hpq1 : (if p x = true then 1 else 0) ≤ if q x = true then 1 else 0 := by
        by_cases hp : p x = true
        · simp [hp, hpq x (List.mem_cons_self x xs) hp]
        · simp [hp]
      omega

end Monotail.Builder

namespace Monotail.Builder

mutual
/-- More fuel never hurts the children-view conversion of one field. -/
theorem intoChildren_mono (fuel : Nat) (f : PField) (fields : List PField)
    (h : (intoChildren fuel f fields).isSome = true) :
    (intoChildren (fuel + 1) f fields).isSome = true := by
  match fuel with
  | 0 => simp [intoChildren] at h
  | n + 1 =>
    simp only [intoChildren] at h ⊢
    cases hl : intoChildrenList n
        (fields.filter fun g => g.parent == some f.id) fields with
    | none => rw [hl] at h; simp at h
    | some cs =>
      have h2 := intoChildrenList_mono n
        (fields.filter fun g => g.parent == some f.id) fields
        (by rw [hl]; rfl)
      cases hl2 : intoChildrenList (n + 1)
          (fields.filter fun g => g.parent == some f.id) fields with
      | none => rw [hl2] at h2; simp at h2
      | some cs2 => simp [hl2]

/-- More fuel never hurts the children-view conversion of a field list. -/
theorem intoChildrenList_mono (fuel : Nat) (gs : List PField)
    (fields : List PField)
    (h : (intoChildrenList fuel gs fields).isSome = true) :
    (intoChildrenList (fuel + 1) gs fields).isSome = true := by
  match fuel, gs with
  | 0, _ => simp [intoChildrenList] at h
  | n + 1, [] => simp [intoChildrenList]
  | n + 1, g :: gs =>
    simp only [intoChildrenList] at h ⊢
    cases hc : intoChildren n g fields with
    | none => rw [hc] at h; simp at h
    | some c =>
      have hc2 := intoChildren_mono n g fields (by rw [hc]; rfl)
      cases hc3 : intoChildren (n + 1) g fields with
      | none => rw [hc3] at hc2; simp at hc2
      | some c2 =>
        rw [hc] at h
        cases hl : intoChildrenList n gs fields with
        | none => rw [hl] at h; simp at h
        | some cs =>
          have hl2 := intoChildrenList_mono n gs fields (by rw [hl]; rfl)
          cases hl3 : intoChildrenList (n + 1) gs fields with
          | none => rw [hl3] at hl2; simp at hl2
          | some cs2 => simp [hc3, hl3]
end

/-- Fuel monotonicity, one field, arbitrary increase. -/
theorem intoChildren_mono_le (f : PField) (fields : List PField)
    {fuel fuel2 : Nat} (h : fuel ≤ fuel2)
    (hs : (intoChildren fuel f fields).isSome = true) :
    (intoChildren fuel2 f fields).isSome = true := by
  induction h with
  | refl => exact hs
  | step _ ih => exact intoChildren_mono _ f fields ih

/-- Fuel monotonicity, field list, arbitrary increase. -/
theorem intoChildrenList_mono_le (gs : List PField) (fields : List PField)
    {fuel fuel2 : Nat} (h : fuel ≤ fuel2)
    (hs : (intoChildrenList fuel gs fields).isSome = true) :
    (intoChildrenList fuel2 gs fields).isSome = true := by
  induction h with
  | refl => exact hs
  | step _ ih => exact intoChildrenList_mono _ gs fields ih

/-- A list of fields each convertible with some fuel is convertible with a
common fuel. -/
theorem intoChildrenList_total (fields gs : List PField)
    (h : ∀ g ∈ gs, ∃ fuel, (intoChildren fuel g fields).isSome = true) :
    ∃ fuel, (intoChildrenList fuel gs fields).isSome = true := by
  induction gs with
  | nil => exact ⟨1, rfl⟩
  | cons g rest ih =>
    obtain ⟨f1, h1⟩ := h g (List.mem_cons_self g rest)
    obtain ⟨f2, h2⟩ := ih (fun x hx => h x (List.mem_cons_of_mem g hx))
    refine ⟨max f1 f2 + 1, ?_⟩
    have h1m : (intoChildren (max f1 f2) g fields).isSome = true :=
      intoChildren_mono_le g fields (Nat.le_max_left f1 f2) h1
    have h2m : (intoChildrenList (max f1 f2) rest fields).isSome = true :=
      intoChildrenList_mono_le rest fields (Nat.le_max_right f1 f2) h2
    simp only [intoChildrenList]
    cases hc : intoChildren (max f1 f2) g fields with
    | none => rw [hc] at h1m; simp at h1m
    | some c =>
      cases hl : intoChildrenList (max f1 f2) rest fields with
      | none => rw [hl] at h2m; simp at h2m
      | some cs => simp [hc, hl]

/-- Downward parent links make `into_children` terminate: enough fuel
exists for any start field. The measure is the number of fields with a
strictly larger id. -/
theorem intoChildren_total (fields : List PField)
    (hinv : ∀ g ∈ fields, ∀ pv, g.parent = some pv → pv < g.id) :
    ∀ (n : Nat) (f : PField),
    fields.countP (fun g => f.id < g.id) < n →
    ∃ fuel, (intoChildren fuel f fields).isSome = true := by
  intro n
  induction n with
  | zero => intro f h; omega
  | succ n ih =>
    intro f hf
    have hch : ∀ g ∈ fields.filter (fun g => g.parent == some f.id),
        ∃ fuel, (intoChildren fuel g fields).isSome = true := by
      intro g hg
      have hgmem : g ∈ fields := (List.mem_filter.mp hg).1
      have hgp : g.parent = some f.id := by
        simpa using (List.mem_filter.mp hg).2
      have hlt : f.id < g.id := hinv g hgmem f.id hgp
      have hcount : fields.countP (fun h0 => g.id < h0.id)
          < fields.countP (fun h0 => f.id < h0.id) := by
        refine countP_lt_of_witness fields _ _ ?_ g hgmem ?_ ?_
        · intro x _ hpx
          simp only [decide_eq_true_eq] at hpx ⊢
          omega
        · simp only [decide_eq_true_eq]
          omega
        · simp
      exact ih g (by omega)
    obtain ⟨fl, hfl⟩ := intoChildrenList_total fields
      (fields.filter fun g => g.parent == some f.id) hch
    refine ⟨fl + 1, ?_⟩
    simp only [intoChildren]
    cases hc : intoChildrenList fl
        (fields.filter fun g => g.parent == some f.id) fields with
    | none => rw [hc] at hfl; simp at hfl
    | some cs => simp [hc]

/-- With downward, present parent links every parent chain reaches a root
within `id + 1` steps. -/
theorem chasesRoot_of_good (fields : List PField)
    (h1 : ∀ f ∈ fields, ∀ pv, f.parent = some pv → pv < f.id)
    (h2 : ∀ f ∈ fields, ∀ pv, f.parent = some pv → ∃ g ∈ fields, g.id = pv) :
    ∀ (n : Nat) (f : PField), f ∈ fields → f.id < n →
    chasesRoot fields n f = true := by
  intro n
  induction n with
  | zero => intro f _ h; omega
  | succ n ih =>
    intro f hf hid
    cases hp : f.parent with
    | none => simp [chasesRoot, hp]
    | some pv =>
      have hlt : pv < f.id := h1 f hf pv hp
      obtain ⟨g0, hg0mem, hg0id⟩ := h2 f hf pv hp
      have hfind : (fields.find? fun g => g.id == pv).isSome = true := by
        rw [List.find?_isSome]
        exact ⟨g0, hg0mem, by simp [hg0id]⟩
      cases hfd : fields.find? (fun g => g.id == pv) with
      | none => rw [hfd] at hfind; simp at hfind
      | some g =>
        have hgid : g.id = pv := by simpa using List.find?_some hfd
        have hgmem : g ∈ fields := List.mem_of_find?_eq_some hfd
        have hrec := ih g hgmem (by omega)
        simp only [chasesRoot, hp, hfd]
        exact hrec

/-- C9. Plan acyclicity and children-view termination: every plan the
builder produces has parent links that strictly decrease in id and always
point at a field of the plan, hence no cycle — every parent chain reaches
a root field — and the `Field::into_children` conversion invoked by
`ExecutionPlan::new` terminates (some fuel completes it) for every field
and for the whole children view. -/
theorem plan_acyclic_children_terminate (idx : IndexB) (doc : DocumentB)
    (fields : List PField) (h : createFieldSet idx doc = .ok fields) :
    (∀ f ∈ fields, ∀ pv, f.parent = some pv → pv < f.id)
    ∧ (∀ f ∈ fields, ∀ pv, f.parent = some pv → ∃ g ∈ fields, g.id = pv)
    ∧ (∀ f ∈ fields, chasesRoot fields (f.id + 1) f = true)
    ∧ (∀ f ∈ fields, ∃ fuel, (intoChildren fuel f fields).isSome = true)
    ∧ (∃ fuel, (planNewChildren fuel fields).isSome = true) := by
  have hg := createFieldSet_good idx doc fields h
  refine ⟨hg.1, hg.2, ?_, ?_, ?_⟩
  · intro f hf
    exact chasesRoot_of_good fields hg.1 hg.2 (f.id + 1) f hf (Nat.lt_succ_self f.id)
  · intro f hf
    exact intoChildren_total fields hg.1
      (fields.countP (fun g => f.id < g.id) + 1) f
      (Nat.lt_succ_self _)
  · unfold planNewChildren
    apply intoChildrenList_total
    intro g _
    exact intoChildren_total fields hg.1
      (fields.countP (fun g0 => g.id < g0.id) + 1) g
      (Nat.lt_succ_self _)

end Monotail.Builder

namespace Monotail.Builder

/-- A small concrete index: `Query.posts : [Post]` with resolver `0`,
`Post.user : User` with resolver `1`, `User.id : Int` without one. -/
def idxNested : IndexB :=
  { getField := fun t f =>
      if t == "Query" && f == "posts" then
        some (.field ⟨GType.list (GType.named "Post" false) false, some 0, []⟩)
      else if t == "Post" && f == "user" then
        some (.field ⟨GType.named "User" false, some 1, []⟩)
      else if t == "User" && f == "id" then
        some (.field ⟨GType.named "Int" false, none, []⟩)
      else none,
    queryName := "Query" }

/-- The anonymous operation `{ posts { user { id } } }`. -/
def docNested : DocumentB :=
  { fragments := [],
    operations := .single
      (.cons (.field "posts" []
        (.cons (.field "user" []
          (.cons (.field "id" [] .nil) .nil)) .nil)) .nil) }

/-- The flat plan the builder produces for `docNested`. -/
def fieldsNested : List PField :=
  [PField.mk 0 "posts" (some 0) (GType.list (GType.named "Post" false) false) [] none,
   PField.mk 1 "user" (some 1) (GType.named "User" false) [] (some 0),
   PField.mk 2 "id" none (GType.named "Int" false) [] (some 1)]

/-- Witness for C9 at the concrete nested plan. -/
theorem plan_acyclic_children_terminate_witness :
    createFieldSet idxNested docNested = .ok fieldsNested
    ∧ ((∀ f ∈ fieldsNested, ∀ pv, f.parent = some pv → pv < f.id)
    ∧ (∀ f ∈ fieldsNested, ∀ pv, f.parent = some pv →
        ∃ g ∈ fieldsNested, g.id = pv)
    ∧ (∀ f ∈ fieldsNested, chasesRoot fieldsNested (f.id + 1) f = true)
    ∧ (∀ f ∈ fieldsNested, ∃ fuel,
        (intoChildren fuel f fieldsNested).isSome = true)
    ∧ (∃ fuel, (planNewChildren fuel fieldsNested).isSome = true)) :=
  ⟨rfl, plan_acyclic_children_terminate idxNested docNested fieldsNested rfl⟩

end Monotail.Builder
